import Mathlib

/-!  Verification of the text-cleaning / headline-extraction pipeline of
`src/adapters/news/aggregate_ai_news.py`.

Text is modelled as `List Char`.  Lines are split on the newline character
(the pipeline's own text never contains the rarer Python line terminators).
Python's `str.lower` is modelled by `Char.toLower`, which agrees with it on
ASCII; every literal the pipeline's rules use is ASCII.  Regular expressions
from the source are embedded as executable functions whose doc comments name
the pattern they translate. -/

set_option maxRecDepth 16000

namespace AINews

/-- Characters that Python's `str.strip` / `str.rstrip` and the regex class
`\s` treat as whitespace (the ASCII ones). -/
def isWs (c : Char) : Bool :=
  c = ' ' || c = '\t' || c = '\n' || c = '\r' || c = '\x0b' || c = '\x0c'

/-- The character list of a string literal. -/
def str (s : String) : List Char := s.data

/-- Python `str.lower` (ASCII). -/
def lowerL (l : List Char) : List Char := l.map Char.toLower

/-- Substring test: Python `in`, and `re.search` of a literal pattern. -/
def containsSub (needle : List Char) : List Char → Bool
  | [] => needle.isEmpty
  | c :: rest => needle.isPrefixOf (c :: rest) || containsSub needle rest

/-- Python `str.rstrip()`: drop trailing whitespace. -/
def rstripL : List Char → List Char
  | [] => []
  | c :: rest =>
    let r := rstripL rest
    if r.isEmpty && isWs c then [] else c :: r

/-- Python `str.strip()`: drop whitespace at both ends. -/
def stripL (l : List Char) : List Char := rstripL (l.dropWhile isWs)

/-- Python `str.splitlines()` restricted to the newline terminator:
`"a\nb" ↦ ["a","b"]`, a trailing newline yields no empty last line,
`"" ↦ []`. -/
def consHead (c : Char) : List (List Char) → List (List Char)
  | [] => [[c]]
  | l :: ls => (c :: l) :: ls

/-- See `consHead`; this is the recursive worker for splitting on `'\n'`. -/
def splitlinesL : List Char → List (List Char)
  | [] => []
  | c :: rest => if c = '\n' then [] :: splitlinesL rest else consHead c (splitlinesL rest)

/-- Python `"\n".join`. -/
def joinNl : List (List Char) → List Char
  | [] => []
  | [l] => l
  | l :: rest => l ++ '\n' :: joinNl rest

/-- The regex word-character class `\w` (ASCII part), for `\b` boundaries. -/
def wordCharB (c : Char) : Bool := c.isAlphanum || c = '_'

-- ---------------------------------------------------------------------------
-- 4.1 Source classifier: `SOURCE_RULES` and `canonicalize_source`
-- (aggregate_ai_news.py lines 41-48 and 347-353).
-- ---------------------------------------------------------------------------

/-- `kw` occurs at position `q` of `hay` with a `\b` word boundary on each
side (every keyword of `SOURCE_RULES` starts and ends in a word character,
so the boundary is: start of string or a non-word char before, end of string
or a non-word char after). -/
def boundedAt (hay kw : List Char) (q : Nat) : Bool :=
  kw.isPrefixOf (hay.drop q)
  && (q == 0 || !wordCharB (hay.getD (q - 1) ' '))
  && (decide (hay.length ≤ q + kw.length) || !wordCharB (hay.getD (q + kw.length) ' '))

/-- The second alternative of a `SOURCE_RULES` pattern, `subject:.*\bKW\b`:
the literal text `subject:` occurs at some position `p`, and `kw` occurs with
word boundaries at some `q ≥ p + 8` with no newline between (regex `.` does
not cross a newline). -/
def subjBranchHit (hay kw : List Char) : Bool :=
  (List.range (hay.length + 1)).any fun p =>
    (str "subject:").isPrefixOf (hay.drop p)
    && (List.range (hay.length + 1)).any fun q =>
      decide (p + 8 ≤ q)
      && ((hay.drop (p + 8)).take (q - (p + 8))).all (fun c => !(c = '\n'))
      && boundedAt hay kw q

/-- One rule of `SOURCE_RULES`, pattern `dom|subject:.*\bkw\b` applied with
`re.search`: the literal domain occurs somewhere, or the subject branch hits. -/
def ruleHit (hay dom kw : List Char) : Bool :=
  containsSub dom hay || subjBranchHit hay kw

/-- `SOURCE_RULES` (lines 42-48): each regex `dom|subject:.*\bkw\b` is kept
as the triple `(dom, kw, canonical name)`, in declaration order. -/
def SOURCE_RULES : List (List Char × List Char × List Char) :=
  [ (str "theneurondaily.com", str "Neuron", str "The Neuron"),
    (str "technologyreview.com", str "The Download", str "The Download"),
    (str "tldrnewsletter.com", str "TLDR AI", str "TLDR AI"),
    (str "superhuman.ai", str "Superhuman", str "Superhuman"),
    (str "therundown.ai", str "Rundown", str "The Rundown AI") ]

/-- `CANONICAL_SOURCES` (line 41). -/
def CANONICAL_SOURCES : List (List Char) :=
  [ str "The Neuron", str "The Download", str "TLDR AI",
    str "Superhuman", str "The Rundown AI" ]

/-- `canonicalize_source` (lines 347-353): lowercase `f"{frm} || {sub}"`,
first matching rule wins, then the canonical-name substring fallback,
else `"Unknown"`. -/
def canonicalize_source (frm sub : List Char) : List Char :=
  let hay := lowerL (frm ++ str " || " ++ sub)
  match SOURCE_RULES.find? (fun r => ruleHit hay r.1 r.2.1) with
  | some r => r.2.2
  | none =>
    match CANONICAL_SOURCES.find? (fun c => containsSub (lowerL c) hay) with
    | some c => c
    | none => str "Unknown"

/-- No ASCII-uppercase character survives `Char.toLower`. -/
theorem toLower_ne_upper (u : Char) (h1 : 65 ≤ u.toNat) (h2 : u.toNat ≤ 90)
    (c : Char) : Char.toLower c ≠ u := by
  intro heq
  by_cases h : c.toNat ≥ 65 ∧ c.toNat ≤ 90
  · have heq2 : Char.ofNat (c.toNat + 32) = u := by
      rw [← heq]; simp only [Char.toLower, h, and_self, if_true]
    obtain ⟨ha, hb⟩ := h
    set n := c.toNat with hn
    interval_cases n <;> (subst heq2; revert h1 h2; decide)
  · have heq2 : c = u := by
      rw [← heq]; simp only [Char.toLower, if_neg h]
    subst heq2
    exact h ⟨h1, h2⟩

/-- An ASCII-uppercase character is not an element of a lowercased string. -/
theorem upper_notMem_lowerL (u : Char) (h1 : 65 ≤ u.toNat) (h2 : u.toNat ≤ 90)
    (s : List Char) : u ∉ lowerL s := by
  intro hmem
  obtain ⟨c, _, hc⟩ := List.mem_map.mp hmem
  exact toLower_ne_upper u h1 h2 c hc

/-- A keyword containing an ASCII-uppercase character never matches inside a
lowercased haystack: the `subject:.*\bKW\b` branch of every source rule is
dead code once `canonicalize_source` lowercases its haystack. -/
theorem subjBranchHit_lower_false (s kw : List Char) (u : Char)
    (hu : u ∈ kw) (h1 : 65 ≤ u.toNat) (h2 : u.toNat ≤ 90) :
    subjBranchHit (lowerL s) kw = false := by
  rw [Bool.eq_false_iff]
  intro htrue
  unfold subjBranchHit boundedAt at htrue
  simp only [List.any_eq_true, Bool.and_eq_true, List.isPrefixOf_iff_prefix] at htrue
  obtain ⟨p, -, -, q, -, ⟨-, -⟩, ⟨hpre2, -⟩, -⟩ := htrue
  have : u ∈ (lowerL s).drop q := hpre2.subset hu
  have : u ∈ lowerL s := List.drop_subset q _ this
  exact upper_notMem_lowerL u h1 h2 s this

/-- C1 (code_bug evidence): the classifier returns `"Unknown"` for a message
whose subject is exactly the keyword `Neuron`, because the `subject:.*\bKW\b`
branch of every rule is unsatisfiable over the lowercased haystack (shown in
general for the `Neuron` keyword in the second conjunct). -/
theorem c1_subject_keyword_dead :
    canonicalize_source (str "alice@example.com") (str "Neuron") = str "Unknown" ∧
    (∀ s : List Char, subjBranchHit (lowerL s) (str "Neuron") = false) := by
  constructor
  · decide
  · intro s
    exact subjBranchHit_lower_false s (str "Neuron") 'N' (by decide) (by decide) (by decide)

-- ---------------------------------------------------------------------------
-- main's per-source best-message table (lines 360-388): one candidate record
-- per fetched message that passed the source and content filters, folded into
-- a table keyed by canonical source name.
-- ---------------------------------------------------------------------------

/-- The dictionary entry built at lines 381-387. -/
structure Item where
  source : List Char
  subject : List Char
  content : List Char
  gmailLink : List Char
  epoch : Nat
deriving DecidableEq

/-- The table `per` before any message is processed. -/
def emptyPer : List Char → Option Item := fun _ => none

/-- Line 388: `if (canon not in per) or (epoch > per[canon]["epoch"]):
per[canon] = item`. -/
def updatePer (per : List Char → Option Item) (it : Item) : List Char → Option Item :=
  fun c =>
    if c = it.source then
      match per it.source with
      | none => some it
      | some old => if old.epoch < it.epoch then some it else some old
    else per c

/-- The whole processing loop's effect on the table. -/
def processAll (msgs : List Item) : List Char → Option Item :=
  msgs.foldl updatePer emptyPer

/-- `updatePer` at the updated key. -/
theorem updatePer_self (per : List Char → Option Item) (it : Item) :
    updatePer per it it.source =
      match per it.source with
      | none => some it
      | some old => if old.epoch < it.epoch then some it else some old := by
  simp [updatePer]

/-- `updatePer` at any other key. -/
theorem updatePer_other (per : List Char → Option Item) (it : Item)
    (c : List Char) (hc : c ≠ it.source) : updatePer per it c = per c := by
  simp [updatePer, hc]

/-- The stored epoch at a key never decreases along the fold. -/
theorem foldl_updatePer_mono (msgs : List Item) :
    ∀ (per : List Char → Option Item) (s : List Char) (old : Item),
      per s = some old →
      ∃ it, msgs.foldl updatePer per s = some it ∧ old.epoch ≤ it.epoch := by
  induction msgs with
  | nil => exact fun per s old h => ⟨old, h, Nat.le_refl _⟩
  | cons m rest ih =>
    intro per s old h
    by_cases hs : s = m.source
    · by_cases hlt : old.epoch < m.epoch
      · have h2 : updatePer per m s = some m := by
          rw [hs, updatePer_self, ← hs, h]
          simp [hlt]
        obtain ⟨it, hit, hle⟩ := ih (updatePer per m) s m h2
        exact ⟨it, hit, Nat.le_trans (Nat.le_of_lt hlt) hle⟩
      · have h2 : updatePer per m s = some old := by
          rw [hs, updatePer_self, ← hs, h]
          simp [hlt]
        exact ih (updatePer per m) s old h2
    · have h2 : updatePer per m s = some old := by
        rw [updatePer_other per m s hs]; exact h
      exact ih (updatePer per m) s old h2

/-- Whatever the fold stores at a key came from the message list or was
already stored. -/
theorem foldl_updatePer_from (msgs : List Item) :
    ∀ (per : List Char → Option Item) (s : List Char) (it : Item),
      msgs.foldl updatePer per s = some it →
      (it ∈ msgs ∧ it.source = s) ∨ per s = some it := by
  induction msgs with
  | nil => exact fun per s it h => Or.inr h
  | cons m rest ih =>
    intro per s it h
    rcases ih (updatePer per m) s it h with hin | hper
    · exact Or.inl ⟨List.mem_cons_of_mem m hin.1, hin.2⟩
    · by_cases hs : s = m.source
      · rw [hs, updatePer_self] at hper
        rcases hold : per m.source with _ | old
        · rw [hold] at hper
          simp only [Option.some.injEq] at hper
          refine Or.inl ⟨?_, ?_⟩
          · rw [← hper]; exact List.mem_cons_self m rest
          · rw [← hper, hs]
        · rw [hold] at hper
          by_cases hlt : old.epoch < m.epoch
          · simp only [hlt, if_true, Option.some.injEq] at hper
            refine Or.inl ⟨?_, ?_⟩
            · rw [← hper]; exact List.mem_cons_self m rest
            · rw [← hper, hs]
          · simp only [hlt, if_false] at hper
            rw [hs]
            exact Or.inr (hold.trans hper)
      · rw [updatePer_other per m s hs] at hper
        exact Or.inr hper

/-- The fold's entry at a key dominates the epoch of every processed message
with that source. -/
theorem foldl_updatePer_max (msgs : List Item) :
    ∀ (per : List Char → Option Item) (s : List Char) (it : Item),
      msgs.foldl updatePer per s = some it →
      ∀ u ∈ msgs, u.source = s → u.epoch ≤ it.epoch := by
  induction msgs with
  | nil => intro _ _ _ _ u hu; exact absurd hu (List.not_mem_nil u)
  | cons m rest ih =>
    intro per s it h u hu hus
    rcases List.mem_cons.mp hu with rfl | hrest
    · subst hus
      have h2 : ∃ j, updatePer per u u.source = some j ∧ u.epoch ≤ j.epoch := by
        simp only [updatePer, if_pos rfl]
        rcases hold : per u.source with _ | old
        · exact ⟨u, rfl, Nat.le_refl _⟩
        · by_cases hlt : old.epoch < u.epoch
          · exact ⟨u, by simp [hlt], Nat.le_refl _⟩
          · exact ⟨old, by simp [hlt], Nat.le_of_not_lt hlt⟩
      obtain ⟨j, hj, hje⟩ := h2
      obtain ⟨it2, hit2, hle⟩ := foldl_updatePer_mono rest (updatePer per u) u.source j hj
      have h' : List.foldl updatePer (updatePer per u) rest u.source = some it := h
      rw [h'] at hit2
      cases hit2
      exact Nat.le_trans hje hle
    · exact ih (updatePer per m) s it h u hrest hus

/-- C2: the table keeps at most one record per source (it maps each source to
an `Option Item`); the record it keeps came from the processed messages, has
the source it is keyed by, and its timestamp dominates every processed
message of that source; and for two messages of one source with distinct
timestamps, the one with the later timestamp is kept in either processing
order. -/
theorem c2_latest_timestamp_wins :
    (∀ (msgs : List Item) (s : List Char) (it : Item),
       processAll msgs s = some it →
       it ∈ msgs ∧ it.source = s ∧ ∀ u ∈ msgs, u.source = s → u.epoch ≤ it.epoch) ∧
    (∀ a b : Item, a.source = b.source → a.epoch < b.epoch →
       processAll [a, b] a.source = some b ∧ processAll [b, a] a.source = some b) := by
  constructor
  · intro msgs s it h
    rcases foldl_updatePer_from msgs emptyPer s it h with hin | hper
    · exact ⟨hin.1, hin.2, foldl_updatePer_max msgs emptyPer s it h⟩
    · exact absurd hper (by simp [emptyPer])
  · intro a b hsrc hlt
    have hnlt : ¬ b.epoch < a.epoch := Nat.not_lt.mpr (Nat.le_of_lt hlt)
    constructor
    · show updatePer (updatePer emptyPer a) b a.source = some b
      simp [updatePer, emptyPer, hsrc, hlt]
    · show updatePer (updatePer emptyPer b) a a.source = some b
      simp [updatePer, emptyPer, hsrc, hnlt]

/-- C9: on a timestamp tie (or any non-increase) the stored record is kept:
the table is overwritten only by a strictly greater timestamp, so of two
equal-timestamp messages of one source the first processed is retained. -/
theorem c9_strict_update_keeps_first :
    (∀ (per : List Char → Option Item) (it old : Item),
       per it.source = some old → ¬ old.epoch < it.epoch →
       updatePer per it = per) ∧
    (∀ a b : Item, a.source = b.source → b.epoch ≤ a.epoch →
       processAll [a, b] a.source = some a) := by
  constructor
  · intro per it old hold hnlt
    funext c
    by_cases hc : c = it.source
    · subst hc
      simp [updatePer, hold, hnlt]
    · simp [updatePer, hc]
  · intro a b hsrc hle
    have hnlt : ¬ a.epoch < b.epoch := Nat.not_lt.mpr hle
    show updatePer (updatePer emptyPer a) b a.source = some a
    simp [updatePer, emptyPer, hsrc, hnlt]

-- ---------------------------------------------------------------------------
-- 4.3 Topic segmenter: `HEADLINE_BOLD`, `HEADLINE_MINREAD`, `SECTION_H2`
-- (lines 175-177), `extract_headlines` (180-188), `split_topics` (190-204).
-- Both callers feed these matchers newline-free lines from `splitlines`.
-- ---------------------------------------------------------------------------

/-- The `\*\*(?P<h>[^*]{6,})\*\*\s*$` core of `HEADLINE_BOLD`, anchored at the
given position: since the class excludes `*`, the capture is the maximal
star-free run after the opening `**`. -/
def hbCore (l : List Char) : Option (List Char) :=
  match l with
  | '*' :: '*' :: rest =>
    let h := rest.takeWhile (fun c => !(c = '*'))
    if 6 ≤ h.length then
      match rest.drop h.length with
      | '*' :: '*' :: tail => if tail.all isWs then some h else none
      | _ => none
    else none
  | _ => none

/-- The `HEADLINE_BOLD` branch in which the optional bullet was consumed:
`\s*` then the bold core. -/
def hbAfterBullet (r : List Char) : Option (List Char) := hbCore (r.dropWhile isWs)

/-- `HEADLINE_BOLD = ^\s*[\-\*]?\s*\*\*(?P<h>[^*]{6,})\*\*\s*$` (line 175),
with the backtracking over the optional `[\-\*]` bullet made explicit: a `*`
is first tried as the bullet, then as the first star of the `**` opener. -/
def hbMatch (ln : List Char) : Option (List Char) :=
  let l1 := ln.dropWhile isWs
  match l1 with
  | [] => none
  | c :: r =>
    if c = '-' then hbAfterBullet r
    else if c = '*' then
      match hbAfterBullet r with
      | some h => some h
      | none => hbCore l1
    else hbCore l1

/-- The tail `\s*\(\d+\s*minute read\)\s*$` of `HEADLINE_MINREAD`, with the
case-insensitive literal compared on the lowercased text. -/
def minreadTail (l : List Char) : Bool :=
  match l.dropWhile isWs with
  | '(' :: r =>
    let ds := r.takeWhile Char.isDigit
    if ds.isEmpty then false
    else
      let r2 := (r.drop ds.length).dropWhile isWs
      if (str "minute read").isPrefixOf (lowerL r2) then
        match r2.drop 11 with
        | ')' :: r3 => r3.all isWs
        | _ => false
      else false
  | _ => false

/-- `HEADLINE_MINREAD = ^([A-Z].+?)\s*\(\d+\s*minute read\)\s*$` with `re.I`
(line 176): the group starts with an ASCII letter (the class under `re.I`),
contains no newline after it, and — being lazy — is the shortest prefix of
length at least 2 whose complement matches the tail. -/
def hmMatch (ln : List Char) : Option (List Char) :=
  match ln with
  | [] => none
  | c :: _ =>
    if c.isAlpha then
      (List.range (ln.length + 1)).findSome? fun k =>
        if 2 ≤ k && ((ln.take k).drop 1).all (fun c2 => !(c2 = '\n'))
            && minreadTail (ln.drop k) then
          some (ln.take k)
        else none
    else none

/-- `SECTION_H2 = ^##\s+(?P<h>.+?)\s*$` (line 177).  When everything after
`##` is whitespace, the backtracked lazy group is the line's last character;
its strip is empty, so both callers then drop the line anyway. -/
def s2Match (ln : List Char) : Option (List Char) :=
  match ln with
  | '#' :: '#' :: rest =>
    match rest with
    | [] => none
    | c :: _ =>
      if isWs c then
        let m := rest.dropWhile isWs
        if m.isEmpty then
          match rest.getLast? with
          | some d => some [d]
          | none => none
        else some (rstripL m)
      else none
  | _ => none

/-- The chain `HEADLINE_BOLD.match(ln) or HEADLINE_MINREAD.match(ln) or
SECTION_H2.match(ln)` followed by `(m.groupdict().get("h") or
m.group(1)).strip()`, shared by lines 183-185 and 194-196. -/
def headCapture (ln : List Char) : Option (List Char) :=
  match hbMatch ln with
  | some h => some (stripL h)
  | none =>
    match hmMatch ln with
    | some h => some (stripL h)
    | none =>
      match s2Match ln with
      | some h => some (stripL h)
      | none => none

/-- The loop of `extract_headlines` (lines 180-188); `seen` holds the titles
already kept. -/
def extractHeadsGo : List (List Char) → List (List Char) → List (List Char)
  | [], _ => []
  | ln :: rest, seen =>
    match headCapture ln with
    | some h =>
      if 6 ≤ h.length && !seen.contains h then h :: extractHeadsGo rest (h :: seen)
      else extractHeadsGo rest seen
    | none => extractHeadsGo rest seen

/-- `extract_headlines` (lines 180-188). -/
def extract_headlines (md : List Char) : List (List Char) :=
  extractHeadsGo (splitlinesL md) []

/-- The `marks` list of `split_topics` (lines 192-197): line index and
stripped capture, kept when the capture is at least 6 characters long.
No deduplication happens here. -/
def marksOf (lines : List (List Char)) : List (Nat × List Char) :=
  lines.enum.filterMap fun p =>
    match headCapture p.2 with
    | some t => if 6 ≤ t.length then some (p.1, t) else none
    | none => none

/-- Line 201: the boundary of a topic's body — the next mark's line index,
or the number of lines. -/
def nextMark (lines : List (List Char)) : List (Nat × List Char) → Nat
  | (i2, _) :: _ => i2
  | [] => lines.length

/-- Line 202: `"\n".join(lines[i+1:j]).strip()`. -/
def bodyAt (lines : List (List Char)) (i j : Nat) : List Char :=
  stripL (joinNl ((lines.drop (i + 1)).take (j - (i + 1))))

/-- Lines 199-203: each topic's body is the text strictly between its mark
and the next one (or the end of the document), stripped; topics whose body
strips to nothing are dropped. -/
def topicsGo (lines : List (List Char)) :
    List (Nat × List Char) → List (List Char × List Char)
  | [] => []
  | (i, t) :: rest =>
    (if (bodyAt lines i (nextMark lines rest)).isEmpty then []
     else [(t, bodyAt lines i (nextMark lines rest))]) ++ topicsGo lines rest

/-- `split_topics` (lines 190-204). -/
def split_topics (md : List Char) : List (List Char × List Char) :=
  let lines := splitlinesL md
  let marks := marksOf lines
  if marks.isEmpty then [] else topicsGo lines marks

/-- A mark's capture is at least 6 characters long. -/
theorem marksOf_len (lines : List (List Char)) (i : Nat) (t : List Char)
    (h : (i, t) ∈ marksOf lines) : 6 ≤ t.length := by
  unfold marksOf at h
  obtain ⟨p, -, hp⟩ := List.mem_filterMap.mp h
  rcases hc : headCapture p.2 with _ | t'
  · rw [hc] at hp; simp at hp
  · rw [hc] at hp
    by_cases hlen : 6 ≤ t'.length
    · simp only [hlen, if_true, Option.some.injEq, Prod.mk.injEq] at hp
      rw [← hp.2]; exact hlen
    · simp [hlen] at hp

/-- Every title of `topicsGo` comes from a mark. -/
theorem topicsGo_title_from_mark (lines : List (List Char)) :
    ∀ (marks : List (Nat × List Char)) (t b : List Char),
      (t, b) ∈ topicsGo lines marks → ∃ i, (i, t) ∈ marks := by
  intro marks
  induction marks with
  | nil => intro t b h; simp [topicsGo] at h
  | cons m rest ih =>
    intro t b h
    obtain ⟨i0, t0⟩ := m
    unfold topicsGo at h
    rcases List.mem_append.mp h with hl | hr
    · by_cases hb : (bodyAt lines i0 (nextMark lines rest)).isEmpty
      · rw [if_pos hb] at hl; simp at hl
      · rw [if_neg hb] at hl
        simp only [List.mem_singleton, Prod.mk.injEq] at hl
        exact ⟨i0, by rw [← hl.1]; exact List.mem_cons_self _ _⟩
    · obtain ⟨i, hi⟩ := ih t b hr
      exact ⟨i, List.mem_cons_of_mem _ hi⟩

/-- C3 (amended): every title produced by the topic segmenter has length at
least 6.  (Titles are not deduplicated; see the counterexample.) -/
theorem c3_topic_title_length (md : List Char) (t b : List Char)
    (hmem : (t, b) ∈ split_topics md) : 6 ≤ t.length := by
  unfold split_topics at hmem
  by_cases hm : (marksOf (splitlinesL md)).isEmpty
  · rw [if_pos hm] at hmem; simp at hmem
  · rw [if_neg hm] at hmem
    obtain ⟨i, hi⟩ := topicsGo_title_from_mark (splitlinesL md) _ t b hmem
    exact marksOf_len (splitlinesL md) i t hi

/-- Witness for `c3_topic_title_length` at a concrete document. -/
theorem c3_topic_title_length_witness : 6 ≤ (str "Topic One").length :=
  c3_topic_title_length (str "**Topic One**\nbody") (str "Topic One") (str "body")
    (by decide)

/-- C3 counterexample: a document repeating one bold heading yields two
topics with the same title — `split_topics` keeps duplicated heading text,
so its titles are not pairwise distinct. -/
theorem c3_duplicate_titles_survive :
    (split_topics (str "**Topic One**\nbody1\n**Topic One**\nbody2")).map Prod.fst
      = [str "Topic One", str "Topic One"] ∧
    ¬ ((split_topics (str "**Topic One**\nbody1\n**Topic One**\nbody2")).map
        Prod.fst).Nodup := by
  constructor
  · decide
  · decide

-- ---------------------------------------------------------------------------
-- 4.4 Reference resolver: `TLDR_TITLE_LINE`, `TLDR_LINK_LINE` (lines
-- 214-215), `parse_reference_links` (217-231), `extract_tldr_items`
-- (233-258).
-- ---------------------------------------------------------------------------

/-- The character class `[A-Z0-9'&\-\.,: ]` of `TLDR_TITLE_LINE` under
`re.I` (which adds the lowercase letters). -/
def tldrClassChar (c : Char) : Bool :=
  c.isAlpha || c.isDigit || c = '\'' || c = '&' || c = '-' || c = '.'
    || c = ',' || c = ':' || c = ' '

/-- The tail `\s*\(\d+\s*minute read\)\s*\[(\d+)\]\s*$` of
`TLDR_TITLE_LINE` (case-insensitive literal), returning the bracketed id. -/
def tldrTail (l : List Char) : Option (List Char) :=
  match l.dropWhile isWs with
  | '(' :: r =>
    let ds := r.takeWhile Char.isDigit
    if ds.isEmpty then none
    else
      let r2 := (r.drop ds.length).dropWhile isWs
      if (str "minute read").isPrefixOf (lowerL r2) then
        match r2.drop 11 with
        | ')' :: r3 =>
          match r3.dropWhile isWs with
          | '[' :: r4 =>
            let rid := r4.takeWhile Char.isDigit
            if rid.isEmpty then none
            else
              match r4.drop rid.length with
              | ']' :: r5 => if r5.all isWs then some rid else none
              | _ => none
          | _ => none
        | _ => none
      else none
  | _ => none

/-- `TLDR_TITLE_LINE = ^([A-Z0-9'&\-\.,: ]+?)\s*\(\d+\s*MINUTE READ\)\s*\[(\d+)\]\s*$`
with `re.I` (line 214), applied to a stripped line: the lazy first group is
the shortest nonempty class-only prefix whose complement matches the tail. -/
def tldrTitleMatch (l : List Char) : Option (List Char × List Char) :=
  (List.range (l.length + 1)).findSome? fun k =>
    if 1 ≤ k && (l.take k).all tldrClassChar then
      match tldrTail (l.drop k) with
      | some rid => some (l.take k, rid)
      | none => none
    else none

/-- Python `str.rstrip(".")`. -/
def rstripDots : List Char → List Char
  | [] => []
  | c :: rest =>
    let r := rstripDots rest
    if r.isEmpty && c = '.' then [] else c :: r

/-- `https?://\S+` anchored at the start and followed by `\s*$`: the scheme,
then the greedy run of non-whitespace, with only whitespace after it. -/
def urlTail (r : List Char) : Option (List Char) :=
  let scheme :=
    if (str "https://").isPrefixOf r then some 8
    else if (str "http://").isPrefixOf r then some 7
    else none
  match scheme with
  | some n =>
    let run := (r.drop n).takeWhile (fun c => !(isWs c))
    if run.isEmpty then none
    else if ((r.drop n).drop run.length).all isWs then some (r.take n ++ run)
    else none
  | none => none

/-- `TLDR_LINK_LINE = ^\[(\d+)\]\s+(https?://\S+)\s*$` (line 215) on a
stripped line, returning `(id, url)`. -/
def tldrLinkLine (l : List Char) : Option (List Char × List Char) :=
  match l with
  | '[' :: r =>
    let rid := r.takeWhile Char.isDigit
    if rid.isEmpty then none
    else
      match r.drop rid.length with
      | ']' :: r2 =>
        let ws := r2.takeWhile isWs
        if ws.isEmpty then none
        else (urlTail (r2.drop ws.length)).map (fun u => (rid, u))
      | _ => none
  | _ => none

/-- The loop of `parse_reference_links` (lines 222-230): a line whose
stripped lowering starts with `links:` switches the flag on (and is itself
skipped, also when the flag is already on); afterwards every line matching
`TLDR_LINK_LINE` appends to the table. -/
def refLinksGo : Bool → List (List Char) → List (List Char × List Char)
  | _, [] => []
  | inl, line :: rest =>
    if (str "links:").isPrefixOf (lowerL (stripL line)) then refLinksGo true rest
    else if inl then
      match tldrLinkLine (stripL line) with
      | some kv => kv :: refLinksGo true rest
      | none => refLinksGo true rest
    else refLinksGo false rest

/-- `parse_reference_links` (lines 217-231), as the insertion-ordered
association list of the Python dict. -/
def parse_reference_links (md : List Char) : List (List Char × List Char) :=
  refLinksGo false (splitlinesL md)

/-- Lookup in that association list with the Python dict's semantics: a later
entry for the same id overwrites an earlier one. -/
def dictGet (l : List (List Char × List Char)) (k : List Char) : Option (List Char) :=
  (l.reverse.find? (fun kv => decide (kv.1 = k))).map Prod.snd

/-- The pre-dedup `items` list of `extract_tldr_items` (lines 239-248): per
line, the title (stripped, then trailing periods dropped) and the resolved
url; titles whose id is not in the table are dropped. -/
def tldrRawItems (md : List Char) : List (List Char × List Char) :=
  (splitlinesL md).filterMap fun line =>
    match tldrTitleMatch (stripL line) with
    | some g =>
      match dictGet (parse_reference_links md) g.2 with
      | some url => some (rstripDots (stripL g.1), url)
      | none => none
    | none => none

/-- The order-preserving dedup of lines 249-257. -/
def pyDedupGo :
    List (List Char × List Char) → List (List Char × List Char) →
      List (List Char × List Char)
  | [], _ => []
  | p :: rest, seen =>
    if seen.contains p then pyDedupGo rest seen
    else p :: pyDedupGo rest (p :: seen)

/-- `extract_tldr_items` (lines 233-258). -/
def extract_tldr_items (md : List Char) : List (List Char × List Char) :=
  pyDedupGo (tldrRawItems md) []

/-- The dedup keeps a subsequence of the raw items. -/
theorem pyDedupGo_sublist :
    ∀ (l seen : List (List Char × List Char)), List.Sublist (pyDedupGo l seen) l := by
  intro l
  induction l with
  | nil => intro seen; exact List.Sublist.refl _
  | cons p rest ih =>
    intro seen
    unfold pyDedupGo
    by_cases hc : seen.contains p
    · rw [if_pos hc]; exact (ih seen).cons p
    · rw [if_neg hc]; exact (ih (p :: seen)).cons₂ p

/-- The dedup's output has no duplicates and avoids the seen set. -/
theorem pyDedupGo_nodup :
    ∀ (l seen : List (List Char × List Char)),
      (pyDedupGo l seen).Nodup ∧ ∀ p ∈ pyDedupGo l seen, p ∉ seen := by
  intro l
  induction l with
  | nil => intro seen; exact ⟨List.nodup_nil, by intro p hp; simp [pyDedupGo] at hp⟩
  | cons q rest ih =>
    intro seen
    unfold pyDedupGo
    by_cases hc : seen.contains q
    · rw [if_pos hc]; exact ih seen
    · rw [if_neg hc]
      obtain ⟨hnd, hout⟩ := ih (q :: seen)
      constructor
      · exact List.nodup_cons.mpr ⟨fun hq => (hout q hq) (List.mem_cons_self q seen), hnd⟩
      · intro p hp
        rcases List.mem_cons.mp hp with rfl | hp2
        · intro habs
          exact hc (List.elem_iff.mpr habs)
        · intro habs
          exact (hout p hp2) (List.mem_cons_of_mem q habs)

/-- The dedup keeps exactly the elements not already seen. -/
theorem pyDedupGo_mem :
    ∀ (l seen : List (List Char × List Char)) (p : List Char × List Char),
      p ∈ pyDedupGo l seen ↔ (p ∈ l ∧ p ∉ seen) := by
  intro l
  induction l with
  | nil => intro seen p; simp [pyDedupGo]
  | cons q rest ih =>
    intro seen p
    unfold pyDedupGo
    by_cases hc : seen.contains q
    · rw [if_pos hc]
      rw [ih seen p]
      constructor
      · exact fun h => ⟨List.mem_cons_of_mem q h.1, h.2⟩
      · rintro ⟨hm, hs⟩
        rcases List.mem_cons.mp hm with rfl | hm2
        · exact absurd (List.elem_iff.mp hc) hs
        · exact ⟨hm2, hs⟩
    · rw [if_neg hc]
      constructor
      · intro h
        rcases List.mem_cons.mp h with rfl | h2
        · exact ⟨List.mem_cons_self p rest, fun habs => hc (List.elem_iff.mpr habs)⟩
        · obtain ⟨hm, hs⟩ := (ih (q :: seen) p).mp h2
          exact ⟨List.mem_cons_of_mem q hm, fun habs => hs (List.mem_cons_of_mem q habs)⟩
      · rintro ⟨hm, hs⟩
        rcases List.mem_cons.mp hm with rfl | hm2
        · exact List.mem_cons_self p _
        · by_cases hpq : p = q
          · subst hpq; exact List.mem_cons_self p _
          · exact List.mem_cons_of_mem q ((ih (q :: seen) p).mpr
              ⟨hm2, fun habs => (List.mem_cons.mp habs).elim hpq hs⟩)

/-- C6: on the spec's synthetic input the extractor returns exactly the one
resolved pair; a title whose bracketed id has no entry in the table is
dropped (second conjunct); and in general the output is the first-seen
deduplication of the raw items: without duplicates, a subsequence of the raw
item list, and with the same members. -/
theorem c6_tldr_reference_roundtrip :
    extract_tldr_items
        (str "FOO BAR (3 MINUTE READ) [7]\n...\nLinks:\n[7] https://example.com/a\n")
      = [(str "FOO BAR", str "https://example.com/a")] ∧
    extract_tldr_items
        (str "AA BB CC (2 MINUTE READ) [9]\nLinks:\n[7] https://example.com/x\n")
      = [] ∧
    ∀ md : List Char,
      (extract_tldr_items md).Nodup ∧
      List.Sublist (extract_tldr_items md) (tldrRawItems md) ∧
      ∀ p, p ∈ extract_tldr_items md ↔ p ∈ tldrRawItems md := by
  refine ⟨by decide, by decide, fun md => ⟨(pyDedupGo_nodup _ _).1, pyDedupGo_sublist _ _, ?_⟩⟩
  intro p
  rw [extract_tldr_items, pyDedupGo_mem]
  simp

-- ---------------------------------------------------------------------------
-- 4.2 Text cleaning: `FOOTER_LINE_PAT`, `SPONSOR_HDR_PAT` (lines 118-119)
-- and `clean_md` (142-159), plus the candidate selection of `main`
-- (lines 375-378).
-- ---------------------------------------------------------------------------

/-- `re.search` of `\b kw \b` (all the footer keywords start and end in word
characters, so `boundedAt` applies). -/
def kwSearch (hay kw : List Char) : Bool :=
  (List.range (hay.length + 1)).any fun q => boundedAt hay kw q

/-- `FOOTER_LINE_PAT` (line 118): `(?is)\b(unsubscribe|privacy policy|terms
of service|manage (?:your )?preferences|view in browser|manage
subscriptions)\b`, searched in the already-lowercased line. -/
def footerLineHit (l : List Char) : Bool :=
  kwSearch l (str "unsubscribe") || kwSearch l (str "privacy policy")
  || kwSearch l (str "terms of service") || kwSearch l (str "manage preferences")
  || kwSearch l (str "manage your preferences") || kwSearch l (str "view in browser")
  || kwSearch l (str "manage subscriptions")

/-- The social-domain search of line 152:
`(facebook|twitter|linkedin|instagram)\.com` (plain substrings). -/
def socialHit (l : List Char) : Bool :=
  containsSub (str "facebook.com") l || containsSub (str "twitter.com") l
  || containsSub (str "linkedin.com") l || containsSub (str "instagram.com") l

/-- `kw` at the start of `l` followed by a `\b` boundary (the keyword ends in
a word character, so: end of string or a non-word character after). -/
def startKwB (l kw : List Char) : Bool :=
  kw.isPrefixOf l
    && (decide (l.length ≤ kw.length) || !wordCharB (l.getD kw.length ' '))

/-- `SPONSOR_HDR_PAT` (line 119), `(?is)^(together with|sponsored)\b`,
combined with the two substring tests of line 146. -/
def sponsorStart (l : List Char) : Bool :=
  startKwB l (str "together with") || startKwB l (str "sponsored")
  || containsSub (str "(sponsor") l || containsSub (str "sponsor)") l

/-- The resume-label test `re.match(r"^[A-Z].+?:$", line.strip())` of line
148: at least three characters, ASCII-uppercase first character, colon last,
no newline inside. -/
def labelLine (s : List Char) : Bool :=
  decide (3 ≤ s.length)
  && (match s.head? with | some c => 'A' ≤ c && c ≤ 'Z' | none => false)
  && (match s.getLast? with | some c => c = ':' | none => false)
  && s.all (fun c => !(c = '\n'))

/-- The lowered stripped text of a line, `line.strip().lower()` after
`line = raw.rstrip()` (lines 144-145). -/
def lowLine (raw : List Char) : List Char := lowerL (stripL (rstripL raw))

/-- The footer / social drop test of line 152 on a line (length measured on
the rstripped line). -/
def footerDrop (raw : List Char) : Bool :=
  (footerLineHit (lowLine raw) || socialHit (lowLine raw))
    && decide ((rstripL raw).length ≤ 140)

/-- The non-blank part of the skip-exit test of line 148: the lowered line
starts with `#`, or the stripped line is a capitalized label. -/
def hashOrLabel (raw : List Char) : Bool :=
  (match (lowLine raw).head? with | some c => c = '#' | none => false)
  || labelLine (stripL (rstripL raw))

/-- One iteration of the `clean_md` loop (lines 144-154): from the skip flag
and a raw line to the new flag and the emitted line, if any.  The sponsor
test runs first even in skip mode; a skip-exiting line is still subject to
the footer filter before being kept. -/
def cleanStep (skipping : Bool) (raw : List Char) : Bool × Option (List Char) :=
  if sponsorStart (lowLine raw) then (true, none)
  else if skipping then
    if (lowLine raw).isEmpty then (false, none)
    else if hashOrLabel raw then
      if footerDrop raw then (false, none) else (false, some (rstripL raw))
    else (true, none)
  else if footerDrop raw then (false, none)
  else (false, some (rstripL raw))

/-- The loop of lines 143-154 over all lines. -/
def cleanLoop : Bool → List (List Char) → List (List Char)
  | _, [] => []
  | sk, raw :: rest =>
    match cleanStep sk raw with
    | (sk2, none) => cleanLoop sk2 rest
    | (sk2, some l) => l :: cleanLoop sk2 rest

/-- `re.sub(r"\n{3,}", "\n\n", text)` (line 156): a run of three or more
newlines becomes exactly two, shorter runs stay.  The flag is on while the
rest of a collapsed run is being skipped. -/
def collapse3NlGo : Bool → List Char → List Char
  | _, [] => []
  | true, c :: rest =>
    if c = '\n' then collapse3NlGo true rest else c :: collapse3NlGo false rest
  | false, a :: rest =>
    if a = '\n' then
      match rest with
      | b :: c :: _ =>
        if b = '\n' && c = '\n' then '\n' :: '\n' :: collapse3NlGo true rest
        else '\n' :: collapse3NlGo false rest
      | _ => '\n' :: collapse3NlGo false rest
    else a :: collapse3NlGo false rest

/-- Python `str.rstrip` of spaces and tabs only, for the `[ \t]+$` sub. -/
def rstripSpTab : List Char → List Char
  | [] => []
  | c :: rest =>
    let r := rstripSpTab rest
    if r.isEmpty && (c = ' ' || c = '\t') then [] else c :: r

/-- Full split on newline keeping empty fields (`"a\n" ↦ ["a",""]`), so a
`re.M` per-line substitution is a map over the fields. -/
def splitKeepNl : List Char → List (List Char)
  | [] => [[]]
  | c :: rest => if c = '\n' then [] :: splitKeepNl rest else consHead c (splitKeepNl rest)

/-- `re.sub(r"[ \t]+$", "", text, flags=re.M)` (line 157). -/
def rstripLines (t : List Char) : List Char :=
  joinNl ((splitKeepNl t).map rstripSpTab)

/-- Does `https?://\S{80,}` match at this position?  The greedy `\S{80,}` is
the maximal non-whitespace run after the scheme. -/
def urlKillHit (s : List Char) : Bool :=
  ((str "https://").isPrefixOf s
    && decide (80 ≤ ((s.drop 8).takeWhile (fun c => !(isWs c))).length))
  || ((str "http://").isPrefixOf s
    && decide (80 ≤ ((s.drop 7).takeWhile (fun c => !(isWs c))).length))

/-- `re.sub(r"https?://\S{80,}", "", text)` (line 158): where a match starts,
the whole maximal non-whitespace run from that position is removed (scheme
included); scanning then continues after it. -/
def stripLongUrlsGo : Bool → List Char → List Char
  | _, [] => []
  | true, c :: rest =>
    if isWs c then c :: stripLongUrlsGo false rest else stripLongUrlsGo true rest
  | false, c :: rest =>
    if urlKillHit (c :: rest) then stripLongUrlsGo true rest
    else c :: stripLongUrlsGo false rest

/-- `clean_md` (lines 142-159): the line loop, then the three regex passes,
then the final strip. -/
def clean_md (md : List Char) : List Char :=
  stripL (stripLongUrlsGo false (rstripLines (collapse3NlGo false
    (joinNl (cleanLoop false (splitlinesL md))))))

/-- Lines 375-378 of `main`: pick the longer cleaned candidate (HTML side on
ties); when the pick is shorter than 500 characters, fall back to the longer
raw candidate (again HTML side on ties). -/
def selectMdText (html_md plain_md : List Char) : List Char :=
  let a := clean_md html_md
  let b := clean_md plain_md
  let md_text := if b.length ≤ a.length then a else b
  if md_text.length < 500 then
    (if plain_md.length ≤ html_md.length then html_md else plain_md)
  else md_text

/-- C5 (amended): the sponsor-skip two-state machine, one arm per transition
of the loop of lines 144-154 — sponsor-start lines (with the `\b` boundary
after the keyword) enter skip mode from either state and are dropped; in
skip mode a blank line leaves skip mode and is dropped, a `#`-initial or
capitalized-label line leaves skip mode and is kept unless the footer filter
drops it, and any other line is dropped; outside skip mode the footer filter
decides — together with the spec's concrete document. -/
theorem c5_sponsor_skip_machine :
    (∀ (sk : Bool) (raw : List Char), sponsorStart (lowLine raw) = true →
       cleanStep sk raw = (true, none)) ∧
    (∀ raw : List Char, sponsorStart (lowLine raw) = false →
       (lowLine raw).isEmpty = true → cleanStep true raw = (false, none)) ∧
    (∀ raw : List Char, sponsorStart (lowLine raw) = false →
       (lowLine raw).isEmpty = false → hashOrLabel raw = true →
       footerDrop raw = false → cleanStep true raw = (false, some (rstripL raw))) ∧
    (∀ raw : List Char, sponsorStart (lowLine raw) = false →
       (lowLine raw).isEmpty = false → hashOrLabel raw = true →
       footerDrop raw = true → cleanStep true raw = (false, none)) ∧
    (∀ raw : List Char, sponsorStart (lowLine raw) = false →
       (lowLine raw).isEmpty = false → hashOrLabel raw = false →
       cleanStep true raw = (true, none)) ∧
    (∀ raw : List Char, sponsorStart (lowLine raw) = false →
       footerDrop raw = false → cleanStep false raw = (false, some (rstripL raw))) ∧
    clean_md (str "Together With Acme\nAd copy line\n\n## Real Topic\nBody")
      = str "## Real Topic\nBody" := by
  refine ⟨?_, ?_, ?_, ?_, ?_, ?_, by decide⟩
  · intro sk raw h; simp [cleanStep, h]
  · intro raw h1 h2; simp [cleanStep, h1, h2]
  · intro raw h1 h2 h3 h4; simp [cleanStep, h1, h2, h3, h4]
  · intro raw h1 h2 h3 h4; simp [cleanStep, h1, h2, h3, h4]
  · intro raw h1 h2 h3; simp [cleanStep, h1, h2, h3]
  · intro raw h1 h2; simp [cleanStep, h1, h2]

/-- C5 counterexample: a line that starts with `sponsored` but continues
with word characters (`sponsoredly …`) does not enter skip mode — the
pattern requires a `\b` boundary after the keyword — so the line, and the
ad-looking line after it, survive `clean_md`, where the claim's machine
would drop both. -/
theorem c5_sponsoredly_not_skipped :
    (str "sponsored").isPrefixOf (lowLine (str "sponsoredly yours")) = true ∧
    cleanStep false (str "sponsoredly yours")
      = (false, some (str "sponsoredly yours")) ∧
    clean_md (str "sponsoredly yours\nEnjoy the regular news")
      = str "sponsoredly yours\nEnjoy the regular news" := by
  refine ⟨by decide, by decide, by decide⟩

/-- C4 (amended): the normalizer picks the longer cleaned candidate — the
HTML-derived one on ties — and, whenever that pick is shorter than 500
characters, replaces it by the longer *raw* candidate (HTML side on ties),
not by the other representation. -/
theorem c4_select_longer_then_raw_fallback :
    (∀ h p : List Char, (clean_md p).length ≤ (clean_md h).length →
       500 ≤ (clean_md h).length → selectMdText h p = clean_md h) ∧
    (∀ h p : List Char, (clean_md h).length < (clean_md p).length →
       500 ≤ (clean_md p).length → selectMdText h p = clean_md p) ∧
    (∀ h p : List Char, (clean_md p).length ≤ (clean_md h).length →
       (clean_md h).length < 500 →
       selectMdText h p = if p.length ≤ h.length then h else p) ∧
    (∀ h p : List Char, (clean_md h).length < (clean_md p).length →
       (clean_md p).length < 500 →
       selectMdText h p = if p.length ≤ h.length then h else p) := by
  refine ⟨?_, ?_, ?_, ?_⟩
  · intro h p h1 h2
    have h3 : ¬ (clean_md h).length < 500 := Nat.not_lt.mpr h2
    simp [selectMdText, h1, h3]
  · intro h p h1 h2
    have h0 : ¬ (clean_md p).length ≤ (clean_md h).length := Nat.not_le.mpr h1
    have h3 : ¬ (clean_md p).length < 500 := Nat.not_lt.mpr h2
    simp [selectMdText, h0, h3]
  · intro h p h1 h2
    simp [selectMdText, h1, h2]
  · intro h p h1 h2
    have h0 : ¬ (clean_md p).length ≤ (clean_md h).length := Nat.not_le.mpr h1
    simp [selectMdText, h0, h2]

/-- C4 counterexample: with an HTML-derived candidate `"Hello world"` and an
empty plain-text candidate, the chosen cleaned candidate is the HTML one and
is shorter than 500 characters, yet the final result is the raw HTML
candidate itself — nothing is re-derived from the other (plain-text)
representation, whose raw and cleaned forms are both empty. -/
theorem c4_short_fallback_keeps_same_side :
    selectMdText (str "Hello world") [] = str "Hello world" ∧
    (clean_md (str "Hello world")).length < 500 ∧
    clean_md ([] : List Char) = [] ∧
    ¬ str "Hello world" = ([] : List Char) := by
  refine ⟨by decide, by decide, by decide, by decide⟩

-- ---------------------------------------------------------------------------
-- `compact` (lines 161-172): blank-run collapsing, bullet normalization,
-- internal-whitespace collapsing, per-line strip, final strip.
-- ---------------------------------------------------------------------------

/-- The bullet class `[-*+]` of line 169. -/
def isBullet (c : Char) : Bool := c = '-' || c = '*' || c = '+'

/-- `re.sub(r"^(\s*[-*+])\s+", r"\1 ", l)` (line 169): leading whitespace,
one bullet character, at least one whitespace character; the whitespace run
after the bullet becomes a single space, the rest is unchanged. -/
def bulletCore (l : List Char) : List Char → List Char
  | b :: rest =>
    if isBullet b then
      if (rest.takeWhile isWs).isEmpty then l
      else l.takeWhile isWs ++ b :: ' ' :: rest.dropWhile isWs
    else l
  | [] => l

/-- See `bulletCore`: the substitution applies it to the line with its
leading whitespace dropped. -/
def bulletSub (l : List Char) : List Char := bulletCore l (l.dropWhile isWs)

/-- `re.sub(r"\s{2,}", " ", l)` (line 170): a maximal whitespace run of two
or more characters becomes one space, a single whitespace character stays
itself.  The flag is on while the rest of a collapsed run is skipped. -/
def collapseWsGo : Bool → List Char → List Char
  | _, [] => []
  | true, c :: rest =>
    if isWs c then collapseWsGo true rest else c :: collapseWsGo false rest
  | false, c :: rest =>
    if isWs c then
      match rest with
      | [] => [c]
      | d :: _ =>
        if isWs d then ' ' :: collapseWsGo true rest else c :: collapseWsGo false rest
    else c :: collapseWsGo false rest

/-- One non-blank line of the `compact` loop (lines 169-171): bullet
normalization, whitespace collapsing, strip. -/
def procLine (r : List Char) : List Char := stripL (collapseWsGo false (bulletSub r))

/-- The loop of `compact` (lines 163-171); `blank` records whether the last
kept line was blank. -/
def compactLoop : Bool → List (List Char) → List (List Char)
  | _, [] => []
  | blank, raw :: rest =>
    if (rstripL raw).isEmpty then
      if blank then compactLoop true rest else [] :: compactLoop true rest
    else procLine (rstripL raw) :: compactLoop false rest

/-- `compact` (lines 161-172). -/
def compact (md : List Char) : List Char :=
  stripL (joinNl (compactLoop false (splitlinesL md)))

/-- No two adjacent whitespace characters. -/
def noWsPair : List Char → Bool
  | a :: b :: r => !(isWs a && isWs b) && noWsPair (b :: r)
  | _ => true

/-- No two adjacent blank lines. -/
def noTwoBlank : List (List Char) → Bool
  | a :: b :: r => !(a.isEmpty && b.isEmpty) && noTwoBlank (b :: r)
  | _ => true

/-- A line the `compact` loop reproduces unchanged: nonempty, no trailing
whitespace, and a fixed point of the per-line normalization. -/
def lineFix (l : List Char) : Bool :=
  !l.isEmpty && decide (rstripL l = l) && decide (procLine l = l)

/-- Drop one leading blank line (the effect of the final strip's left end on
the joined lines). -/
def dropB : List (List Char) → List (List Char)
  | [] :: t => t
  | L => L

/-- Drop one trailing blank line (the final strip's right end). -/
def dropBLast : List (List Char) → List (List Char)
  | [] => []
  | [l] => if l.isEmpty then [] else [l]
  | l :: t => l :: dropBLast t

-- ------------------------- rstrip / strip lemmas ---------------------------

/-- The defining equation of `rstripL` on a cons, with the `let` inlined. -/
theorem rstripL_cons (c : Char) (t : List Char) :
    rstripL (c :: t) = if (rstripL t).isEmpty && isWs c then [] else c :: rstripL t := rfl

/-- `rstripL` erases the line exactly when it is all whitespace. -/
theorem rstripL_nil_iff (l : List Char) :
    rstripL l = [] ↔ ∀ c ∈ l, isWs c = true := by
  induction l with
  | nil => simp [rstripL]
  | cons c t ih =>
    constructor
    · intro h x hx
      simp only [rstripL] at h
      by_cases he : (rstripL t).isEmpty && isWs c
      · obtain ⟨h1, h2⟩ := Bool.and_eq_true_iff.mp he
        rcases List.mem_cons.mp hx with rfl | hx2
        · exact h2
        · exact ih.mp (List.isEmpty_iff.mp h1) x hx2
      · rw [if_neg he] at h
        exact absurd h (List.cons_ne_nil c (rstripL t))
    · intro hall
      have h1 : rstripL t = [] := ih.mpr fun x hx => hall x (List.mem_cons_of_mem c hx)
      have h2 : isWs c = true := hall c (List.mem_cons_self c t)
      simp [rstripL, h1, h2]

/-- The last character after `rstripL` is not whitespace. -/
theorem rstripL_getLast_not_ws (l : List Char) :
    match (rstripL l).getLast? with
    | some c => isWs c = false
    | none => True := by
  induction l with
  | nil => simp [rstripL]
  | cons c t ih =>
    simp only [rstripL]
    by_cases h1 : rstripL t = []
    · by_cases h2 : isWs c
      · rw [if_pos (by simp [h1, h2])]
        trivial
      · rw [if_neg (by simp [h2])]
        rw [h1]
        simp only [List.getLast?_singleton]
        exact Bool.eq_false_iff.mpr h2
    · rw [if_neg (by simp [List.isEmpty_iff, h1])]
      rcases ht : rstripL t with _ | ⟨d, t2⟩
      · exact absurd ht h1
      · rw [ht] at ih
        have heq : (c :: d :: t2).getLast? = (d :: t2).getLast? :=
          List.getLast?_cons_cons
        rw [heq]
        exact ih

/-- A line whose last character is not whitespace (or which is empty) is
unchanged by `rstripL`. -/
theorem rstripL_self_of_last (l : List Char)
    (h : match l.getLast? with | some c => isWs c = false | none => True) :
    rstripL l = l := by
  induction l with
  | nil => rfl
  | cons c t ih =>
    rcases t with _ | ⟨d, t2⟩
    · simp only [List.getLast?_singleton] at h
      simp [rstripL, h]
    · rw [List.getLast?_cons_cons] at h
      have ht2 := ih h
      rw [rstripL_cons, ht2]
      rw [if_neg (by simp)]


/-- `rstripL` is idempotent. -/
theorem rstripL_idem (l : List Char) : rstripL (rstripL l) = rstripL l :=
  rstripL_self_of_last _ (rstripL_getLast_not_ws l)

/-- `rstripL` keeps a prefix of the line. -/
theorem rstripL_append_exists (l : List Char) : ∃ zs, rstripL l ++ zs = l := by
  induction l with
  | nil => exact ⟨[], rfl⟩
  | cons c t ih =>
    rw [rstripL_cons]
    by_cases he : (rstripL t).isEmpty && isWs c
    · rw [if_pos he]; exact ⟨c :: t, rfl⟩
    · rw [if_neg he]
      obtain ⟨zs, hz⟩ := ih
      exact ⟨zs, by simp [hz]⟩

/-- Splitting `rstripL` over an append. -/
theorem rstripL_append (xs ys : List Char) :
    rstripL (xs ++ ys) =
      if (rstripL ys).isEmpty then rstripL xs else xs ++ rstripL ys := by
  induction xs with
  | nil =>
    by_cases h : (rstripL ys).isEmpty
    · rw [if_pos h]
      simp only [List.isEmpty_iff] at h
      simp [h, rstripL]
    · rw [if_neg h]; rfl
  | cons c t ih =>
    by_cases h : (rstripL ys).isEmpty
    · rw [if_pos h]
      have ih2 : rstripL (t ++ ys) = rstripL t := by rw [ih, if_pos h]
      rw [List.cons_append, rstripL_cons, ih2, rstripL_cons]
    · rw [if_neg h]
      have ih2 : rstripL (t ++ ys) = t ++ rstripL ys := by rw [ih, if_neg h]
      rw [List.cons_append, rstripL_cons, ih2]
      have hne : (t ++ rstripL ys) ≠ [] := by
        intro hab
        rcases List.append_eq_nil.mp hab with ⟨-, h2⟩
        simp [List.isEmpty_iff, h2] at h
      rw [if_neg (by simp [List.isEmpty_iff, hne])]
      simp

/-- A list with a non-whitespace head (or no head) is kept by the
whitespace `dropWhile`. -/
theorem dropWhile_ws_self (l : List Char)
    (h : match l.head? with | some c => isWs c = false | none => True) :
    l.dropWhile isWs = l := by
  rcases l with _ | ⟨c, t⟩
  · rfl
  · simp only [List.head?_cons] at h
    simp [List.dropWhile_cons, h]

/-- The head after a strip is not whitespace. -/
theorem stripL_head_not_ws (l : List Char) :
    match (stripL l).head? with | some c => isWs c = false | none => True := by
  unfold stripL
  rcases hd : l.dropWhile isWs with _ | ⟨c, t⟩
  · simp [rstripL]
  · have hc : isWs c = false := by
      have h2 := List.head?_dropWhile_not isWs l
      rw [hd] at h2
      simpa using h2
    rw [rstripL_cons]
    by_cases he : (rstripL t).isEmpty && isWs c
    · rw [if_pos he]; trivial
    · rw [if_neg he]
      simp only [List.head?_cons]
      exact hc

/-- The last character after a strip is not whitespace. -/
theorem stripL_getLast_not_ws (l : List Char) :
    match (stripL l).getLast? with | some c => isWs c = false | none => True :=
  rstripL_getLast_not_ws _

/-- `stripL` is idempotent. -/
theorem stripL_idem (l : List Char) : stripL (stripL l) = stripL l := by
  have h1 : (stripL l).dropWhile isWs = stripL l :=
    dropWhile_ws_self _ (stripL_head_not_ws l)
  show rstripL ((stripL l).dropWhile isWs) = stripL l
  rw [h1]
  exact rstripL_self_of_last _ (stripL_getLast_not_ws l)

/-- Characters survive `rstripL` only from the original line. -/
theorem mem_rstripL (l : List Char) (c : Char) (hc : c ∈ rstripL l) : c ∈ l := by
  obtain ⟨zs, hz⟩ := rstripL_append_exists l
  rw [← hz]
  exact List.mem_append_left _ hc

/-- Characters survive `stripL` only from the original line. -/
theorem mem_stripL (l : List Char) (c : Char) (hc : c ∈ stripL l) : c ∈ l :=
  List.dropWhile_subset _ (mem_rstripL _ _ hc)

/-- A non-whitespace character survives the whitespace `dropWhile`. -/
theorem mem_dropWhile_of_not_ws (l : List Char) (c : Char) (hc : c ∈ l)
    (hw : isWs c = false) : c ∈ l.dropWhile isWs := by
  induction l with
  | nil => exact absurd hc (List.not_mem_nil c)
  | cons a t ih =>
    by_cases ha : isWs a
    · rw [List.dropWhile_cons_of_pos ha]
      rcases List.mem_cons.mp hc with rfl | h2
      · rw [hw] at ha; exact absurd ha (by simp)
      · exact ih h2
    · rw [List.dropWhile_cons_of_neg ha]
      exact hc

/-- A line containing a non-whitespace character does not strip to nothing. -/
theorem stripL_ne_nil (l : List Char) (c : Char) (hc : c ∈ l)
    (hw : isWs c = false) : stripL l ≠ [] := by
  intro h
  have h2 : c ∈ l.dropWhile isWs := mem_dropWhile_of_not_ws l c hc hw
  have h3 := (rstripL_nil_iff _).mp h c h2
  rw [hw] at h3
  exact absurd h3 (by simp)

/-- `noWsPair` restricted to the tail. -/
theorem noWsPair_tail (a : Char) (t : List Char) (h : noWsPair (a :: t) = true) :
    noWsPair t = true := by
  rcases t with _ | ⟨b, r⟩
  · rfl
  · exact (Bool.and_eq_true_iff.mp h).2

/-- Extending a `noWsPair` list by a safe head. -/
theorem noWsPair_cons_of_head (c : Char) (X : List Char)
    (h : isWs c = false ∨
      (match X.head? with | some d => isWs d = false | none => True))
    (hX : noWsPair X = true) : noWsPair (c :: X) = true := by
  rcases X with _ | ⟨d, r⟩
  · rfl
  · refine Bool.and_eq_true_iff.mpr ⟨?_, hX⟩
    rcases h with h | h
    · simp [h]
    · simp only [List.head?_cons] at h
      simp [h]

/-- `noWsPair` passes to the right part of an append. -/
theorem noWsPair_append_right (xs ys : List Char)
    (h : noWsPair (xs ++ ys) = true) : noWsPair ys = true := by
  induction xs with
  | nil => exact h
  | cons a t ih => exact ih (noWsPair_tail _ _ h)

/-- `noWsPair` passes to the left part of an append. -/
theorem noWsPair_append_left (xs ys : List Char)
    (h : noWsPair (xs ++ ys) = true) : noWsPair xs = true := by
  induction xs with
  | nil => rfl
  | cons a t ih =>
    rcases t with _ | ⟨b, r⟩
    · rfl
    · refine Bool.and_eq_true_iff.mpr ⟨(Bool.and_eq_true_iff.mp h).1, ih ?_⟩
      exact (Bool.and_eq_true_iff.mp h).2

/-- `noWsPair` survives `rstripL`. -/
theorem noWsPair_rstripL (l : List Char) (h : noWsPair l = true) :
    noWsPair (rstripL l) = true := by
  obtain ⟨zs, hz⟩ := rstripL_append_exists l
  exact noWsPair_append_left _ zs (by rw [hz]; exact h)

/-- `noWsPair` survives the whitespace `dropWhile`. -/
theorem noWsPair_dropWhile (l : List Char) (h : noWsPair l = true) :
    noWsPair (l.dropWhile isWs) = true := by
  obtain ⟨t, ht⟩ := List.dropWhile_suffix (l := l) isWs
  exact noWsPair_append_right t _ (by rw [ht]; exact h)

/-- `noWsPair` survives `stripL`. -/
theorem noWsPair_stripL (l : List Char) (h : noWsPair l = true) :
    noWsPair (stripL l) = true :=
  noWsPair_rstripL _ (noWsPair_dropWhile _ h)

/-- Skip mode on a whitespace character. -/
theorem collapse_true_ws (c : Char) (rest : List Char) (hc : isWs c = true) :
    collapseWsGo true (c :: rest) = collapseWsGo true rest := by
  simp [collapseWsGo, hc]

/-- Skip mode ends at a non-whitespace character. -/
theorem collapse_true_nws (c : Char) (rest : List Char) (hc : isWs c = false) :
    collapseWsGo true (c :: rest) = c :: collapseWsGo false rest := by
  simp [collapseWsGo, hc]

/-- Normal mode keeps a non-whitespace character. -/
theorem collapse_false_nws (c : Char) (rest : List Char) (hc : isWs c = false) :
    collapseWsGo false (c :: rest) = c :: collapseWsGo false rest := by
  simp [collapseWsGo, hc]

/-- Normal mode on a whitespace character followed by another whitespace. -/
theorem collapse_false_ws_ws (c d : Char) (r : List Char) (hc : isWs c = true)
    (hd : isWs d = true) :
    collapseWsGo false (c :: d :: r) = ' ' :: collapseWsGo true (d :: r) := by
  simp [collapseWsGo, hc, hd]

/-- Normal mode on a single whitespace character before a non-whitespace. -/
theorem collapse_false_ws_nws (c d : Char) (r : List Char) (hc : isWs c = true)
    (hd : isWs d = false) :
    collapseWsGo false (c :: d :: r) = c :: collapseWsGo false (d :: r) := by
  simp [collapseWsGo, hc, hd]

/-- The first character produced in skip mode is not whitespace. -/
theorem collapse_true_head (l : List Char) :
    match (collapseWsGo true l).head? with
    | some c => isWs c = false
    | none => True := by
  induction l with
  | nil => trivial
  | cons c rest ih =>
    rcases hc : isWs c
    · rw [collapse_true_nws c rest hc]
      simp only [List.head?_cons]
      exact hc
    · rw [collapse_true_ws c rest hc]
      exact ih

/-- The collapse produces no two adjacent whitespace characters. -/
theorem collapse_noWsPair (l : List Char) :
    noWsPair (collapseWsGo false l) = true ∧ noWsPair (collapseWsGo true l) = true := by
  induction l with
  | nil => exact ⟨rfl, rfl⟩
  | cons c rest ih =>
    obtain ⟨ihf, iht⟩ := ih
    constructor
    · rcases hc : isWs c
      · rw [collapse_false_nws c rest hc]
        exact noWsPair_cons_of_head _ _ (Or.inl hc) ihf
      · rcases rest with _ | ⟨d, r⟩
        · simp [collapseWsGo, hc, noWsPair]
        · rcases hd : isWs d
          · rw [collapse_false_ws_nws c d r hc hd]
            refine noWsPair_cons_of_head _ _ (Or.inr ?_) ihf
            rw [collapse_false_nws d r hd]
            simp only [List.head?_cons]
            exact hd
          · rw [collapse_false_ws_ws c d r hc hd]
            exact noWsPair_cons_of_head _ _ (Or.inr (collapse_true_head _)) iht
    · rcases hc : isWs c
      · rw [collapse_true_nws c rest hc]
        exact noWsPair_cons_of_head _ _ (Or.inl hc) ihf
      · rw [collapse_true_ws c rest hc]
        exact iht

/-- A line with no adjacent whitespace pair is unchanged by the collapse. -/
theorem collapse_id_of_noWsPair (l : List Char) (h : noWsPair l = true) :
    collapseWsGo false l = l := by
  induction l with
  | nil => rfl
  | cons c rest ih =>
    rcases hc : isWs c
    · rw [collapse_false_nws c rest hc, ih (noWsPair_tail _ _ h)]
    · rcases rest with _ | ⟨d, r⟩
      · simp [collapseWsGo, hc]
      · have hd : isWs d = false := by
          rcases hdb : isWs d
          · rfl
          · exfalso
            have hp := (Bool.and_eq_true_iff.mp h).1
            rw [hc, hdb] at hp
            simp at hp
        rw [collapse_false_ws_nws c d r hc hd, ih (noWsPair_tail _ _ h)]

/-- Every output character of the collapse is an input character or a space. -/
theorem mem_collapse (l : List Char) :
    ∀ (b : Bool) (c : Char), c ∈ collapseWsGo b l → c ∈ l ∨ c = ' ' := by
  induction l with
  | nil => intro b c hc; simp [collapseWsGo] at hc
  | cons a rest ih =>
    intro b c hc
    rcases b
    · rcases ha : isWs a
      · rw [collapse_false_nws a rest ha] at hc
        rcases List.mem_cons.mp hc with rfl | h2
        · exact Or.inl (List.mem_cons_self _ _)
        · rcases ih false c h2 with h3 | h3
          · exact Or.inl (List.mem_cons_of_mem a h3)
          · exact Or.inr h3
      · rcases rest with _ | ⟨d, r⟩
        · simp only [collapseWsGo, ha, if_true] at hc
          rcases List.mem_singleton.mp hc with rfl
          exact Or.inl (List.mem_cons_self _ _)
        · rcases hd : isWs d
          · rw [collapse_false_ws_nws a d r ha hd] at hc
            rcases List.mem_cons.mp hc with rfl | h2
            · exact Or.inl (List.mem_cons_self _ _)
            · rcases ih false c h2 with h3 | h3
              · exact Or.inl (List.mem_cons_of_mem a h3)
              · exact Or.inr h3
          · rw [collapse_false_ws_ws a d r ha hd] at hc
            rcases List.mem_cons.mp hc with rfl | h2
            · exact Or.inr rfl
            · rcases ih true c h2 with h3 | h3
              · exact Or.inl (List.mem_cons_of_mem a h3)
              · exact Or.inr h3
    · rcases ha : isWs a
      · rw [collapse_true_nws a rest ha] at hc
        rcases List.mem_cons.mp hc with rfl | h2
        · exact Or.inl (List.mem_cons_self _ _)
        · rcases ih false c h2 with h3 | h3
          · exact Or.inl (List.mem_cons_of_mem a h3)
          · exact Or.inr h3
      · rw [collapse_true_ws a rest ha] at hc
        rcases ih true c hc with h3 | h3
        · exact Or.inl (List.mem_cons_of_mem a h3)
        · exact Or.inr h3

/-- The collapse keeps some non-whitespace character when the input has one. -/
theorem collapse_has_nonws (l : List Char) :
    ∀ (b : Bool) (c : Char), c ∈ l → isWs c = false →
      ∃ d ∈ collapseWsGo b l, isWs d = false := by
  induction l with
  | nil => intro b c hc _; simp at hc
  | cons a rest ih =>
    intro b c hc hw
    rcases ha : isWs a
    · -- the head survives in every branch
      rcases b
      · rw [collapse_false_nws a rest ha]
        exact ⟨a, List.mem_cons_self _ _, ha⟩
      · rw [collapse_true_nws a rest ha]
        exact ⟨a, List.mem_cons_self _ _, ha⟩
    · have hcr : c ∈ rest := by
        rcases List.mem_cons.mp hc with rfl | h2
        · rw [hw] at ha; exact absurd ha (by simp)
        · exact h2
      rcases b
      · rcases rest with _ | ⟨d, r⟩
        · simp at hcr
        · rcases hd : isWs d
          · rw [collapse_false_ws_nws a d r ha hd]
            obtain ⟨e, he, hew⟩ := ih false c hcr hw
            exact ⟨e, List.mem_cons_of_mem a he, hew⟩
          · rw [collapse_false_ws_ws a d r ha hd]
            obtain ⟨e, he, hew⟩ := ih true c hcr hw
            exact ⟨e, List.mem_cons_of_mem _ he, hew⟩
      · rw [collapse_true_ws a rest ha]
        exact ih true c hcr hw

/-- Every output character of the bullet substitution is an input character
or a space. -/
theorem mem_bulletSub (l : List Char) (c : Char) (hc : c ∈ bulletSub l) :
    c ∈ l ∨ c = ' ' := by
  unfold bulletSub at hc
  rcases hdw : l.dropWhile isWs with _ | ⟨b, rest⟩
  · rw [hdw] at hc; exact Or.inl hc
  · rw [hdw] at hc
    simp only [bulletCore] at hc
    by_cases hb : isBullet b
    · rw [if_pos hb] at hc
      by_cases he : (rest.takeWhile isWs).isEmpty
      · rw [if_pos he] at hc; exact Or.inl hc
      · rw [if_neg he] at hc
        rcases List.mem_append.mp hc with h1 | h2
        · exact Or.inl (List.takeWhile_subset _ h1)
        · rcases List.mem_cons.mp h2 with rfl | h3
          · refine Or.inl (List.dropWhile_subset isWs ?_)
            rw [hdw]; exact List.mem_cons_self _ _
          · rcases List.mem_cons.mp h3 with rfl | h4
            · exact Or.inr rfl
            · have h5 : c ∈ rest := List.dropWhile_subset _ h4
              refine Or.inl (List.dropWhile_subset isWs ?_)
              rw [hdw]; exact List.mem_cons_of_mem b h5
    · rw [if_neg hb] at hc; exact Or.inl hc

/-- The bullet substitution keeps some non-whitespace character when the
input has one. -/
theorem bulletSub_has_nonws (l : List Char) (c : Char) (hc : c ∈ l)
    (hw : isWs c = false) : ∃ d ∈ bulletSub l, isWs d = false := by
  unfold bulletSub
  rcases hdw : l.dropWhile isWs with _ | ⟨b, rest⟩
  · exact ⟨c, hc, hw⟩
  · simp only [bulletCore]
    by_cases hb : isBullet b
    · by_cases he : (rest.takeWhile isWs).isEmpty
      · rw [if_pos hb, if_pos he]; exact ⟨c, hc, hw⟩
      · rw [if_pos hb, if_neg he]
        have hbw : isWs b = false := by
          have h2 := List.head?_dropWhile_not isWs l
          rw [hdw] at h2
          simpa using h2
        exact ⟨b, List.mem_append_right _ (List.mem_cons_self _ _), hbw⟩
    · rw [if_neg hb]; exact ⟨c, hc, hw⟩

/-- Skip mode swallows a whitespace block wholesale. -/
theorem collapse_true_skip (w z : List Char) (hw : ∀ c ∈ w, isWs c = true) :
    collapseWsGo true (w ++ z) = collapseWsGo true z := by
  induction w with
  | nil => rfl
  | cons c t ih =>
    rw [List.cons_append, collapse_true_ws c _ (hw c (List.mem_cons_self _ _))]
    exact ih fun x hx => hw x (List.mem_cons_of_mem c hx)

/-- After the collapse, dropping leading whitespace lands exactly on the
first non-whitespace character of the input. -/
theorem collapse_dropWhile_ws (w z' : List Char) (b : Char)
    (hw : ∀ c ∈ w, isWs c = true) (hb : isWs b = false) :
    (collapseWsGo false (w ++ b :: z')).dropWhile isWs
      = b :: collapseWsGo false z' := by
  induction w with
  | nil =>
    rw [List.nil_append, collapse_false_nws b z' hb]
    exact dropWhile_ws_self _ (by simp only [List.head?_cons]; exact hb)
  | cons c t ih =>
    have hc : isWs c = true := hw c (List.mem_cons_self _ _)
    have hwt : ∀ x ∈ t, isWs x = true := fun x hx => hw x (List.mem_cons_of_mem c hx)
    rcases t with _ | ⟨e, t2⟩
    · rw [List.nil_append] at ih
      rw [List.cons_append, List.nil_append]
      rw [collapse_false_ws_nws c b z' hc hb]
      rw [List.dropWhile_cons_of_pos hc]
      rw [collapse_false_nws b z' hb]
      exact dropWhile_ws_self _ (by simp only [List.head?_cons]; exact hb)
    · have hew : isWs e = true := hwt e (List.mem_cons_self _ _)
      rw [List.cons_append]
      have hshape : (e :: t2) ++ b :: z' = e :: (t2 ++ b :: z') := List.cons_append ..
      rw [hshape]
      rw [collapse_false_ws_ws c e _ hc hew]
      rw [List.dropWhile_cons_of_pos (by simp [isWs])]
      rw [← hshape]
      rw [collapse_true_skip (e :: t2) (b :: z') hwt]
      rw [collapse_true_nws b z' hb]
      exact dropWhile_ws_self _ (by simp only [List.head?_cons]; exact hb)

/-- A line already in bullet normal form: if it starts with a bullet
character followed by whitespace, that whitespace is a single space. -/
def bulletOk : List Char → Bool
  | b :: c :: _ => !(isBullet b && (isWs c && !(c = ' ')))
  | _ => true

/-- A stripped, whitespace-collapsed line in bullet normal form is a fixed
point of the bullet substitution. -/
theorem bulletSub_fix (x : List Char)
    (hh : match x.head? with | some c => isWs c = false | none => True)
    (hnp : noWsPair x = true) (hok : bulletOk x = true) : bulletSub x = x := by
  rcases x with _ | ⟨b, t⟩
  · rfl
  · have hdw : (b :: t).dropWhile isWs = b :: t := dropWhile_ws_self _ hh
    unfold bulletSub
    rw [hdw]
    simp only [bulletCore]
    by_cases hbl : isBullet b
    · rw [if_pos hbl]
      rcases t with _ | ⟨c, t'⟩
      · rw [if_pos (by simp)]
      · rcases hcw : isWs c
        · rw [if_pos (by simp [List.takeWhile_cons, hcw])]
        · have hsp : c = ' ' := by
            have hok2 : (!(isBullet b && (isWs c && !(c = ' ')))) = true := hok
            rw [hbl, hcw] at hok2
            simpa using hok2
          subst hsp
          have hth : match t'.head? with | some d => isWs d = false | none => True := by
            rcases t' with _ | ⟨d, r⟩
            · trivial
            · have hp := (Bool.and_eq_true_iff.mp (noWsPair_tail _ _ hnp)).1
              simp only [List.head?_cons]
              rcases hdb : isWs d
              · rfl
              · rw [hdb] at hp
                simp [isWs] at hp
          rw [if_neg (by simp [List.takeWhile_cons, isWs])]
          have h1 : (b :: ' ' :: t').takeWhile isWs = [] := by
            have : isWs b = false := by simpa using hh
            simp [List.takeWhile_cons, this]
          have h3 : (' ' :: t').dropWhile isWs = t'.dropWhile isWs := by
            simp [List.dropWhile_cons, isWs]
          rw [h1, h3, dropWhile_ws_self t' hth]
          rfl
    · rw [if_neg hbl]

/-- A line of only whitespace strips to nothing. -/
theorem stripL_nil_of_all_ws (l : List Char) (h : ∀ c ∈ l, isWs c = true) :
    stripL l = [] := by
  unfold stripL
  rw [rstripL_nil_iff]
  exact fun c hc => h c (List.dropWhile_subset _ hc)

/-- A rstripped nonempty line contains a non-whitespace character. -/
theorem exists_nonws_of_rstrip_self (r : List Char) (hne : r ≠ [])
    (hr : rstripL r = r) : ∃ c ∈ r, isWs c = false := by
  by_contra hall
  push_neg at hall
  have h2 : ∀ c ∈ r, isWs c = true := by
    intro c hc
    rcases hb : isWs c
    · exact absurd hb (hall c hc)
    · rfl
  have h3 := (rstripL_nil_iff r).mpr h2
  rw [hr] at h3
  exact hne h3

/-- The per-line normalization keeps a line with substance nonempty. -/
theorem procLine_ne_nil (r : List Char) (c : Char) (hc : c ∈ r)
    (hw : isWs c = false) : procLine r ≠ [] := by
  obtain ⟨d, hd, hdw⟩ := bulletSub_has_nonws r c hc hw
  obtain ⟨e, he, hew⟩ := collapse_has_nonws (bulletSub r) false d hd hdw
  exact stripL_ne_nil _ e he hew

/-- `procLine` output carries no trailing whitespace. -/
theorem procLine_rstrip (r : List Char) : rstripL (procLine r) = procLine r :=
  rstripL_self_of_last _ (stripL_getLast_not_ws _)

/-- `procLine` output has no adjacent whitespace pair. -/
theorem procLine_noWsPair (r : List Char) : noWsPair (procLine r) = true :=
  noWsPair_stripL _ (collapse_noWsPair (bulletSub r)).1

/-- `procLine` output is in bullet normal form. -/
theorem procLine_bulletOk (r : List Char) : bulletOk (procLine r) = true := by
  unfold procLine
  rcases hdw : r.dropWhile isWs with _ | ⟨b, rest⟩
  · have hall : ∀ c ∈ r, isWs c = true := List.dropWhile_eq_nil_iff.mp hdw
    have hbs : bulletSub r = r := by
      unfold bulletSub; rw [hdw]; rfl
    rw [hbs]
    have h2 : stripL (collapseWsGo false r) = [] := by
      apply stripL_nil_of_all_ws
      intro c hc
      rcases mem_collapse r false c hc with h3 | h3
      · exact hall c h3
      · subst h3; rfl
    rw [h2]
    rfl
  · have hb : isWs b = false := by
      have h2 := List.head?_dropWhile_not isWs r
      rw [hdw] at h2
      simpa using h2
    have hwt : ∀ c ∈ r.takeWhile isWs, isWs c = true :=
      fun c hc => List.mem_takeWhile_imp hc
    have hr : r.takeWhile isWs ++ b :: rest = r := by
      rw [← hdw]; exact List.takeWhile_append_dropWhile isWs r
    by_cases hbl : isBullet b
    · by_cases he : (rest.takeWhile isWs).isEmpty
      · have hbs : bulletSub r = r := by
          unfold bulletSub; rw [hdw]; simp only [bulletCore]
          rw [if_pos hbl, if_pos he]
        obtain ⟨w, hw, hrw⟩ : ∃ w, (∀ c ∈ w, isWs c = true) ∧ w ++ b :: rest = r :=
          ⟨r.takeWhile isWs, hwt, hr⟩
        rw [hbs, ← hrw]
        show bulletOk (rstripL ((collapseWsGo false (w ++ b :: rest)).dropWhile isWs)) = true
        rw [collapse_dropWhile_ws w rest b hw hb]
        rw [rstripL_cons, if_neg (by simp [hb])]
        rcases rest with _ | ⟨e, r2⟩
        · simp [collapseWsGo, rstripL, bulletOk]
        · have hew : isWs e = false := by
            rcases heb : isWs e
            · rfl
            · exfalso
              rw [List.takeWhile_cons_of_pos heb] at he
              simp at he
          rw [collapse_false_nws e r2 hew]
          rw [rstripL_cons]
          rw [if_neg (by simp [hew])]
          simp [bulletOk, hew]
      · have hbs : bulletSub r = r.takeWhile isWs ++ b :: ' ' :: rest.dropWhile isWs := by
          unfold bulletSub; rw [hdw]; simp only [bulletCore]
          rw [if_pos hbl, if_neg he]
        rw [hbs]
        have hd2 := collapse_dropWhile_ws (r.takeWhile isWs)
          (' ' :: rest.dropWhile isWs) b hwt hb
        show bulletOk (rstripL ((collapseWsGo false
          (r.takeWhile isWs ++ b :: ' ' :: rest.dropWhile isWs)).dropWhile isWs)) = true
        rw [hd2]
        rw [rstripL_cons, if_neg (by simp [hb])]
        rcases hz : rest.dropWhile isWs with _ | ⟨e, r2⟩
        · simp [collapseWsGo, isWs, rstripL, bulletOk]
        · have hew : isWs e = false := by
            have h2 := List.head?_dropWhile_not isWs rest
            rw [hz] at h2
            simpa using h2
          rw [collapse_false_ws_nws ' ' e r2 (by simp [isWs]) hew]
          rw [collapse_false_nws e r2 hew]
          have h4 : rstripL (e :: collapseWsGo false r2)
              = e :: rstripL (collapseWsGo false r2) := by
            rw [rstripL_cons, if_neg (by simp [hew])]
          have h5 : rstripL (' ' :: e :: collapseWsGo false r2)
              = ' ' :: e :: rstripL (collapseWsGo false r2) := by
            rw [rstripL_cons, h4, if_neg (by simp)]
          rw [h5]
          simp [bulletOk]
    · have hbs : bulletSub r = r := by
        unfold bulletSub; rw [hdw]; simp only [bulletCore]
        rw [if_neg hbl]
      obtain ⟨w, hw, hrw⟩ : ∃ w, (∀ c ∈ w, isWs c = true) ∧ w ++ b :: rest = r :=
        ⟨r.takeWhile isWs, hwt, hr⟩
      rw [hbs, ← hrw]
      show bulletOk (rstripL ((collapseWsGo false (w ++ b :: rest)).dropWhile isWs)) = true
      rw [collapse_dropWhile_ws w rest b hw hb]
      rw [rstripL_cons, if_neg (by simp [hb])]
      rcases hX : rstripL (collapseWsGo false rest) with _ | ⟨y, ys⟩
      · simp [bulletOk]
      · simp [bulletOk, hbl]

/-- The per-line normalization is idempotent. -/
theorem procLine_fix (r : List Char) : procLine (procLine r) = procLine r := by
  show stripL (collapseWsGo false (bulletSub (procLine r))) = procLine r
  rw [bulletSub_fix (procLine r) (stripL_head_not_ws _) (procLine_noWsPair r)
    (procLine_bulletOk r)]
  rw [collapse_id_of_noWsPair _ (procLine_noWsPair r)]
  exact stripL_idem _

/-- The loop's per-line pass lands on lines the loop keeps fixed. -/
theorem procLine_lineFix (raw : List Char) (hne : rstripL raw ≠ []) :
    lineFix (procLine (rstripL raw)) = true := by
  obtain ⟨c, hc, hw⟩ := exists_nonws_of_rstrip_self (rstripL raw) hne (rstripL_idem raw)
  have h1 := procLine_ne_nil (rstripL raw) c hc hw
  have h2 := procLine_rstrip (rstripL raw)
  have h3 := procLine_fix (rstripL raw)
  simp [lineFix, List.isEmpty_iff, h1, h2, h3]

/-- Splitting a line glued before an explicit newline. -/
theorem splitlines_append_nl (l t : List Char) (hl : '\n' ∉ l) :
    splitlinesL (l ++ '\n' :: t) = l :: splitlinesL t := by
  induction l with
  | nil => simp [splitlinesL]
  | cons c l2 ih =>
    have hc : ¬ c = '\n' := fun h => hl (h ▸ List.mem_cons_self c l2)
    have hl2 : '\n' ∉ l2 := fun h => hl (List.mem_cons_of_mem c h)
    rw [List.cons_append]
    show (if c = '\n' then ([] : List Char) :: splitlinesL (l2 ++ '\n' :: t)
      else consHead c (splitlinesL (l2 ++ '\n' :: t))) = (c :: l2) :: splitlinesL t
    rw [if_neg hc, ih hl2]
    rfl

/-- A nonempty newline-free text is one line. -/
theorem splitlines_single (l : List Char) (hl : '\n' ∉ l) (hne : l ≠ []) :
    splitlinesL l = [l] := by
  induction l with
  | nil => exact absurd rfl hne
  | cons c l2 ih =>
    have hc : ¬ c = '\n' := fun h => hl (h ▸ List.mem_cons_self c l2)
    have hl2 : '\n' ∉ l2 := fun h => hl (List.mem_cons_of_mem c h)
    show (if c = '\n' then ([] : List Char) :: splitlinesL l2
      else consHead c (splitlinesL l2)) = [c :: l2]
    rw [if_neg hc]
    rcases l2 with _ | ⟨d, l3⟩
    · rfl
    · rw [ih hl2 (by simp)]
      rfl

/-- Splitting inverts joining, for newline-free lines with no trailing
blank. -/
theorem splitlines_joinNl (L : List (List Char)) (hne : L ≠ [])
    (hlast : L.getLast? ≠ some ([] : List Char))
    (hnl : ∀ l ∈ L, '\n' ∉ l) :
    splitlinesL (joinNl L) = L := by
  induction L with
  | nil => exact absurd rfl hne
  | cons l rest ih =>
    rcases rest with _ | ⟨m, rest2⟩
    · have hl : l ≠ [] := by
        intro h
        apply hlast
        simp [h]
      show splitlinesL l = [l]
      exact splitlines_single l (hnl l (List.mem_cons_self _ _)) hl
    · show splitlinesL (l ++ '\n' :: joinNl (m :: rest2)) = l :: m :: rest2
      rw [splitlines_append_nl l _ (hnl l (List.mem_cons_self _ _))]
      rw [ih (List.cons_ne_nil m rest2)
        (by rw [List.getLast?_cons_cons] at hlast; exact hlast)
        (fun x hx => hnl x (List.mem_cons_of_mem l hx))]

/-- Lines produced by the splitter contain no newline. -/
theorem splitlines_no_nl (s : List Char) : ∀ l ∈ splitlinesL s, '\n' ∉ l := by
  induction s with
  | nil => intro l hl; simp [splitlinesL] at hl
  | cons c rest ih =>
    intro l hl
    by_cases hc : c = '\n'
    · rw [show splitlinesL (c :: rest) = [] :: splitlinesL rest from by
        simp [splitlinesL, hc]] at hl
      rcases List.mem_cons.mp hl with rfl | h2
      · simp
      · exact ih l h2
    · rw [show splitlinesL (c :: rest) = consHead c (splitlinesL rest) from by
        simp [splitlinesL, hc]] at hl
      rcases hsp : splitlinesL rest with _ | ⟨h0, t0⟩
      · rw [hsp] at hl
        simp only [consHead] at hl
        rcases List.mem_singleton.mp hl with rfl
        intro hmem
        rcases List.mem_singleton.mp hmem with rfl
        exact hc rfl
      · rw [hsp] at hl
        simp only [consHead] at hl
        rcases List.mem_cons.mp hl with rfl | h2
        · intro hmem
          rcases List.mem_cons.mp hmem with h3 | h3
          · exact hc h3.symm
          · exact ih h0 (by rw [hsp]; exact List.mem_cons_self _ _) h3
        · exact ih l (by rw [hsp]; exact List.mem_cons_of_mem h0 h2)

/-- Fixed lines are nonempty. -/
theorem lineFix_ne_nil (l : List Char) (h : lineFix l = true) : l ≠ [] := by
  have h1 := (Bool.and_eq_true_iff.mp (Bool.and_eq_true_iff.mp h).1).1
  simpa [List.isEmpty_iff] using h1

/-- Fixed lines carry no trailing whitespace. -/
theorem lineFix_rstrip (l : List Char) (h : lineFix l = true) : rstripL l = l := by
  have h1 := (Bool.and_eq_true_iff.mp (Bool.and_eq_true_iff.mp h).1).2
  simpa using h1

/-- Fixed lines are fixed by the per-line normalization. -/
theorem lineFix_proc (l : List Char) (h : lineFix l = true) : procLine l = l := by
  have h1 := (Bool.and_eq_true_iff.mp h).2
  simpa using h1

/-- A fixed line starts with a non-whitespace character. -/
theorem lineFix_head (l : List Char) (h : lineFix l = true) :
    match l.head? with | some c => isWs c = false | none => True := by
  have h3 := stripL_head_not_ws (collapseWsGo false (bulletSub l))
  rw [show stripL (collapseWsGo false (bulletSub l)) = procLine l from rfl] at h3
  rw [lineFix_proc l h] at h3
  exact h3

/-- A fixed line ends with a non-whitespace character. -/
theorem lineFix_getLast (l : List Char) (h : lineFix l = true) :
    match l.getLast? with | some c => isWs c = false | none => True := by
  have h3 := stripL_getLast_not_ws (collapseWsGo false (bulletSub l))
  rw [show stripL (collapseWsGo false (bulletSub l)) = procLine l from rfl] at h3
  rw [lineFix_proc l h] at h3
  exact h3

/-- Characters of a normalized line come from the line or are spaces. -/
theorem mem_procLine (r : List Char) (c : Char) (hc : c ∈ procLine r) :
    c ∈ r ∨ c = ' ' := by
  have h1 := mem_stripL _ _ hc
  rcases mem_collapse _ false _ h1 with h2 | h2
  · exact mem_bulletSub r c h2
  · exact Or.inr h2

/-- Every line the loop emits is blank or fixed. -/
theorem compactLoop_elem (L : List (List Char)) :
    ∀ (b : Bool) (l : List Char), l ∈ compactLoop b L → l = [] ∨ lineFix l = true := by
  induction L with
  | nil => intro b l hl; simp [compactLoop] at hl
  | cons raw rest ih =>
    intro b l hl
    unfold compactLoop at hl
    by_cases hre : (rstripL raw).isEmpty
    · rw [if_pos hre] at hl
      by_cases hb : b
      · rw [if_pos hb] at hl
        exact ih true l hl
      · rw [if_neg hb] at hl
        rcases List.mem_cons.mp hl with rfl | h2
        · exact Or.inl rfl
        · exact ih true l h2
    · rw [if_neg hre] at hl
      rcases List.mem_cons.mp hl with rfl | h2
      · exact Or.inr (procLine_lineFix raw (by simpa [List.isEmpty_iff] using hre))
      · exact ih false l h2

/-- Every line the loop emits is newline-free when the input lines are. -/
theorem compactLoop_no_nl (L : List (List Char)) (hnl : ∀ l ∈ L, '\n' ∉ l) :
    ∀ (b : Bool) (l : List Char), l ∈ compactLoop b L → '\n' ∉ l := by
  induction L with
  | nil => intro b l hl; simp [compactLoop] at hl
  | cons raw rest ih =>
    have hrest : ∀ l ∈ rest, '\n' ∉ l := fun x hx => hnl x (List.mem_cons_of_mem raw hx)
    intro b l hl
    unfold compactLoop at hl
    by_cases hre : (rstripL raw).isEmpty
    · rw [if_pos hre] at hl
      by_cases hb : b
      · rw [if_pos hb] at hl
        exact ih hrest true l hl
      · rw [if_neg hb] at hl
        rcases List.mem_cons.mp hl with rfl | h2
        · simp
        · exact ih hrest true l h2
    · rw [if_neg hre] at hl
      rcases List.mem_cons.mp hl with rfl | h2
      · intro hmem
        rcases mem_procLine _ _ hmem with h3 | h3
        · exact hnl raw (List.mem_cons_self _ _) (mem_rstripL _ _ h3)
        · exact absurd h3 (by decide)
      · exact ih hrest false l h2

/-- `noTwoBlank` restricted to the tail. -/
theorem noTwoBlank_tail (a : List Char) (t : List (List Char))
    (h : noTwoBlank (a :: t) = true) : noTwoBlank t = true := by
  rcases t with _ | ⟨b, r⟩
  · rfl
  · exact (Bool.and_eq_true_iff.mp h).2

/-- Extending a `noTwoBlank` list by a safe head. -/
theorem noTwoBlank_cons_of_head (x : List Char) (X : List (List Char))
    (h : x.isEmpty = false ∨
      (match X.head? with | some y => y.isEmpty = false | none => True))
    (hX : noTwoBlank X = true) : noTwoBlank (x :: X) = true := by
  rcases X with _ | ⟨y, r⟩
  · rfl
  · refine Bool.and_eq_true_iff.mpr ⟨?_, hX⟩
    rcases h with h | h
    · simp [h]
    · simp only [List.head?_cons] at h
      simp [h]

/-- The loop never emits two blank lines in a row, and emits no leading
blank after a blank was just emitted. -/
theorem compactLoop_struct (L : List (List Char)) :
    ∀ b : Bool, noTwoBlank (compactLoop b L) = true ∧
      (b = true → (compactLoop b L).head? ≠ some ([] : List Char)) := by
  induction L with
  | nil => intro b; exact ⟨rfl, fun _ => by simp [compactLoop]⟩
  | cons raw rest ih =>
    intro b
    unfold compactLoop
    by_cases hre : (rstripL raw).isEmpty
    · rw [if_pos hre]
      by_cases hb : b
      · rw [if_pos hb]
        exact ⟨(ih true).1, fun _ => (ih true).2 rfl⟩
      · rw [if_neg hb]
        refine ⟨?_, fun hbt => absurd hbt hb⟩
        refine noTwoBlank_cons_of_head _ _ (Or.inr ?_) (ih true).1
        rcases hh : (compactLoop true rest).head? with _ | y
        · trivial
        · have h2 := (ih true).2 rfl
          rw [hh] at h2
          rcases hye : y.isEmpty
          · exact hye
          · exfalso
            exact h2 (by rw [List.isEmpty_iff.mp hye])
    · rw [if_neg hre]
      have hpl : procLine (rstripL raw) ≠ [] :=
        lineFix_ne_nil _ (procLine_lineFix raw (by simpa [List.isEmpty_iff] using hre))
      constructor
      · exact noTwoBlank_cons_of_head _ _
          (Or.inl (by simp [List.isEmpty_iff, hpl])) (ih false).1
      · intro _
        simp only [List.head?_cons]
        intro hcon
        injection hcon with hc2
        exact hpl hc2

/-- Membership through `dropB`. -/
theorem mem_dropB (M : List (List Char)) (x : List Char) (hx : x ∈ dropB M) :
    x ∈ M := by
  rcases M with _ | ⟨l, t⟩
  · exact hx
  · rcases l with _ | ⟨c, l2⟩
    · exact List.mem_cons_of_mem _ hx
    · exact hx

/-- Membership through `dropBLast`. -/
theorem mem_dropBLast (M : List (List Char)) (x : List Char)
    (hx : x ∈ dropBLast M) : x ∈ M := by
  induction M with
  | nil => exact hx
  | cons l t ih =>
    rcases t with _ | ⟨m, r⟩
    · by_cases hl : l.isEmpty
      · rw [show dropBLast [l] = [] from by simp [dropBLast, hl]] at hx
        simp at hx
      · rw [show dropBLast [l] = [l] from by simp [dropBLast, hl]] at hx
        exact hx
    · rw [show dropBLast (l :: m :: r) = l :: dropBLast (m :: r) from rfl] at hx
      rcases List.mem_cons.mp hx with rfl | h2
      · exact List.mem_cons_self _ _
      · exact List.mem_cons_of_mem _ (ih h2)

/-- `noTwoBlank` survives `dropB`. -/
theorem noTwoBlank_dropB (M : List (List Char)) (h : noTwoBlank M = true) :
    noTwoBlank (dropB M) = true := by
  rcases M with _ | ⟨l, t⟩
  · exact h
  · rcases l with _ | ⟨c, l2⟩
    · exact noTwoBlank_tail _ _ h
    · exact h

/-- The head of `dropBLast` is the head, when any remains. -/
theorem head?_dropBLast (M : List (List Char)) (x : List Char)
    (hx : (dropBLast M).head? = some x) : M.head? = some x := by
  rcases M with _ | ⟨l, t⟩
  · simp [dropBLast] at hx
  · rcases t with _ | ⟨m, r⟩
    · by_cases hl : l.isEmpty
      · rw [show dropBLast [l] = [] from by simp [dropBLast, hl]] at hx
        simp at hx
      · rw [show dropBLast [l] = [l] from by simp [dropBLast, hl]] at hx
        exact hx
    · rw [show dropBLast (l :: m :: r) = l :: dropBLast (m :: r) from rfl] at hx
      exact hx

/-- `noTwoBlank` survives `dropBLast`. -/
theorem noTwoBlank_dropBLast (M : List (List Char)) (h : noTwoBlank M = true) :
    noTwoBlank (dropBLast M) = true := by
  induction M with
  | nil => rfl
  | cons l t ih =>
    rcases t with _ | ⟨m, r⟩
    · by_cases hl : l.isEmpty
      · rw [show dropBLast [l] = [] from by simp [dropBLast, hl]]; rfl
      · rw [show dropBLast [l] = [l] from by simp [dropBLast, hl]]; rfl
    · rw [show dropBLast (l :: m :: r) = l :: dropBLast (m :: r) from rfl]
      have hp := (Bool.and_eq_true_iff.mp h).1
      refine noTwoBlank_cons_of_head _ _ ?_ (ih (noTwoBlank_tail _ _ h))
      rcases hle : l.isEmpty
      · exact Or.inl rfl
      · right
        have hme : m.isEmpty = false := by
          rw [hle] at hp
          simpa using hp
        rcases hh : (dropBLast (m :: r)).head? with _ | y
        · trivial
        · have hm : (m :: r).head? = some y := head?_dropBLast _ _ hh
          simp only [List.head?_cons] at hm
          injection hm with hm2
          exact hm2 ▸ hme

/-- `dropB` is the identity when the head is not blank. -/
theorem dropB_self (M : List (List Char)) (h : M.head? ≠ some ([] : List Char)) :
    dropB M = M := by
  rcases M with _ | ⟨l, t⟩
  · rfl
  · rcases l with _ | ⟨c, l2⟩
    · exact absurd rfl h
    · rfl

/-- `dropBLast` is the identity when the last line is not blank. -/
theorem dropBLast_self (M : List (List Char))
    (h : M.getLast? ≠ some ([] : List Char)) : dropBLast M = M := by
  induction M with
  | nil => rfl
  | cons l t ih =>
    rcases t with _ | ⟨m, r⟩
    · have hl : ¬ l.isEmpty := by
        intro hle
        exact h (by rw [List.isEmpty_iff.mp hle]; simp)
      simp [dropBLast, hl]
    · rw [show dropBLast (l :: m :: r) = l :: dropBLast (m :: r) from rfl]
      rw [ih (by rw [List.getLast?_cons_cons] at h; exact h)]

/-- The head of `dropB` is never blank. -/
theorem dropB_head_ne_blank (M : List (List Char)) (h : noTwoBlank M = true) :
    (dropB M).head? ≠ some ([] : List Char) := by
  rcases M with _ | ⟨l, t⟩
  · simp [dropB]
  · rcases l with _ | ⟨c, l2⟩
    · show t.head? ≠ some []
      rcases t with _ | ⟨m, r⟩
      · simp
      · simp only [List.head?_cons]
        intro hcon
        injection hcon with hm
        have hp := (Bool.and_eq_true_iff.mp h).1
        rw [hm] at hp
        simp at hp
    · simp only [dropB, List.head?_cons]
      intro hcon
      injection hcon with hm
      exact absurd hm (by simp)

/-- The last line of `dropBLast` is never blank. -/
theorem dropBLast_getLast_ne_blank (M : List (List Char))
    (h : noTwoBlank M = true) :
    (dropBLast M).getLast? ≠ some ([] : List Char) := by
  induction M with
  | nil => simp [dropBLast]
  | cons l t ih =>
    rcases t with _ | ⟨m, r⟩
    · by_cases hl : l.isEmpty
      · rw [show dropBLast [l] = [] from by simp [dropBLast, hl]]
        simp
      · rw [show dropBLast [l] = [l] from by simp [dropBLast, hl]]
        simp only [List.getLast?_singleton]
        intro hcon
        injection hcon with hm
        rw [hm] at hl
        exact hl rfl
    · rw [show dropBLast (l :: m :: r) = l :: dropBLast (m :: r) from rfl]
      rcases hk : dropBLast (m :: r) with _ | ⟨k0, k1⟩
      · -- dropBLast (m :: r) = [] : then m :: r = [m] with m blank; pair gives l nonblank
        simp only [List.getLast?_singleton]
        intro hcon
        injection hcon with hm
        have hme : m.isEmpty = true := by
          rcases r with _ | ⟨x, r2⟩
          · by_cases hq : m.isEmpty
            · exact hq
            · rw [show dropBLast [m] = [m] from by simp [dropBLast, hq]] at hk
              exact absurd hk (by simp)
          · rw [show dropBLast (m :: x :: r2) = m :: dropBLast (x :: r2) from rfl] at hk
            exact absurd hk (by simp)
        have hp := (Bool.and_eq_true_iff.mp h).1
        rw [hm, hme] at hp
        simp at hp
      · have h2 := ih (noTwoBlank_tail _ _ h)
        rw [hk] at h2
        rw [show (l :: k0 :: k1).getLast? = (k0 :: k1).getLast? from List.getLast?_cons_cons]
        exact h2

/-- The head of a joined line list is the head of its first line. -/
theorem joinNl_head (l : List Char) (rest : List (List Char)) (hl : l ≠ []) :
    (joinNl (l :: rest)).head? = l.head? := by
  rcases rest with _ | ⟨m, r⟩
  · rfl
  · show (l ++ '\n' :: joinNl (m :: r)).head? = l.head?
    rw [List.head?_append]
    rcases l with _ | ⟨c, t⟩
    · exact absurd rfl hl
    · simp

/-- A joined line list is empty only for no lines or one blank line. -/
theorem joinNl_eq_nil_iff (L : List (List Char)) :
    joinNl L = [] ↔ L = [] ∨ L = [([] : List Char)] := by
  rcases L with _ | ⟨l, rest⟩
  · simp [joinNl]
  · rcases rest with _ | ⟨m, r⟩
    · show l = [] ↔ _
      constructor
      · intro h; exact Or.inr (by rw [h])
      · intro h
        rcases h with h | h
        · exact absurd h (by simp)
        · injection h
    · show l ++ '\n' :: joinNl (m :: r) = [] ↔ _
      constructor
      · intro h
        exact absurd h (by simp)
      · intro h
        rcases h with h | h <;> simp at h

/-- A line's characters sit inside the joined text. -/
theorem mem_joinNl_head (l : List Char) (rest : List (List Char)) (c : Char)
    (hc : c ∈ l) : c ∈ joinNl (l :: rest) := by
  rcases rest with _ | ⟨m, r⟩
  · exact hc
  · exact List.mem_append_left _ hc

/-- Dropping leading whitespace from the joined loop output drops exactly a
leading blank line. -/
theorem strip_join_left (out : List (List Char))
    (helem : ∀ l ∈ out, l = [] ∨ lineFix l = true)
    (hnt : noTwoBlank out = true) :
    (joinNl out).dropWhile isWs = joinNl (dropB out) := by
  rcases out with _ | ⟨l, rest⟩
  · rfl
  · by_cases hl : l = []
    · subst hl
      rcases rest with _ | ⟨m, r⟩
      · rfl
      · show (([] : List Char) ++ '\n' :: joinNl (m :: r)).dropWhile isWs
          = joinNl (m :: r)
        rw [List.nil_append]
        rw [List.dropWhile_cons_of_pos (by decide)]
        have hm : m ≠ [] := by
          have hp := (Bool.and_eq_true_iff.mp hnt).1
          intro hme
          rw [hme] at hp
          simp at hp
        have hfix : lineFix m = true := (helem m (by simp)).resolve_left hm
        apply dropWhile_ws_self
        rw [joinNl_head m r hm]
        exact lineFix_head m hfix
    · rw [dropB_self _ (by
        simp only [List.head?_cons]
        intro hcon
        injection hcon with h2
        exact hl h2)]
      apply dropWhile_ws_self
      rw [joinNl_head l rest hl]
      exact lineFix_head l ((helem l (by simp)).resolve_left hl)

/-- Right-stripping the joined loop output drops exactly a trailing blank
line. -/
theorem strip_join_right (M : List (List Char))
    (helem : ∀ l ∈ M, l = [] ∨ lineFix l = true)
    (hnt : noTwoBlank M = true) :
    rstripL (joinNl M) = joinNl (dropBLast M) := by
  induction M with
  | nil => rfl
  | cons l rest ih =>
    rcases rest with _ | ⟨m, r⟩
    · show rstripL l = joinNl (dropBLast [l])
      by_cases hl : l = []
      · subst hl; rfl
      · have hfix := (helem l (by simp)).resolve_left hl
        rw [lineFix_rstrip l hfix]
        rw [show dropBLast [l] = [l] from by simp [dropBLast, List.isEmpty_iff, hl]]
        rfl
    · have hih : rstripL (joinNl (m :: r)) = joinNl (dropBLast (m :: r)) :=
        ih (fun x hx => helem x (List.mem_cons_of_mem l hx)) (noTwoBlank_tail _ _ hnt)
      show rstripL (l ++ '\n' :: joinNl (m :: r)) = joinNl (dropBLast (l :: m :: r))
      rw [show dropBLast (l :: m :: r) = l :: dropBLast (m :: r) from rfl]
      rw [rstripL_append]
      by_cases hz : rstripL (joinNl (m :: r)) = []
      · have hys : rstripL ('\n' :: joinNl (m :: r)) = [] := by
          rw [rstripL_cons, if_pos (by rw [hz]; decide)]
        rw [hys]
        simp only [List.isEmpty_nil, if_true]
        have hK : dropBLast (m :: r) = [] := by
          have hjn : joinNl (dropBLast (m :: r)) = [] := by rw [← hih, hz]
          rcases (joinNl_eq_nil_iff _).mp hjn with h2 | h2
          · exact h2
          · exfalso
            apply dropBLast_getLast_ne_blank (m :: r) (noTwoBlank_tail _ _ hnt)
            rw [h2]
            simp
        rw [hK]
        show rstripL l = l
        have hm : m = [] := by
          by_contra hm
          have hfix := (helem m (by simp)).resolve_left hm
          obtain ⟨c, hc, hw⟩ := exists_nonws_of_rstrip_self m hm (lineFix_rstrip m hfix)
          have hcm : c ∈ joinNl (m :: r) := mem_joinNl_head m r c hc
          have h3 := (rstripL_nil_iff _).mp hz c hcm
          rw [hw] at h3
          exact absurd h3 (by simp)
        have hl : l ≠ [] := by
          have hp := (Bool.and_eq_true_iff.mp hnt).1
          intro hle
          rw [hm, hle] at hp
          simp at hp
        exact lineFix_rstrip l ((helem l (by simp)).resolve_left hl)
      · have hys : rstripL ('\n' :: joinNl (m :: r))
            = '\n' :: rstripL (joinNl (m :: r)) := by
          rw [rstripL_cons, if_neg (by simp [List.isEmpty_iff, hz])]
        rw [hys]
        rw [if_neg (by simp [List.isEmpty_iff])]
        rw [hih]
        rcases hK : dropBLast (m :: r) with _ | ⟨k0, k1⟩
        · exfalso
          apply hz
          rw [hih, hK]
          rfl
        · rfl

/-- The loop reproduces a list of fixed lines with single blank separators
and no blank at either end. -/
theorem compactLoop_fixed (V : List (List Char)) :
    ∀ b : Bool, (∀ l ∈ V, l = [] ∨ lineFix l = true) → noTwoBlank V = true →
      V.getLast? ≠ some ([] : List Char) →
      (b = true → V.head? ≠ some ([] : List Char)) →
      compactLoop b V = V := by
  induction V with
  | nil => intro b _ _ _ _; rfl
  | cons l rest ih =>
    intro b helem hnt hlast hhead
    by_cases hl : l = []
    · subst hl
      have hb : b = false := by
        rcases b
        · rfl
        · exact absurd (by simp) (hhead rfl)
      subst hb
      have hrne : rest ≠ [] := by
        intro h
        subst h
        exact hlast (by simp)
      unfold compactLoop
      rw [if_pos (by simp [rstripL])]
      rw [if_neg (by simp)]
      congr 1
      apply ih true (fun x hx => helem x (List.mem_cons_of_mem _ hx))
        (noTwoBlank_tail _ _ hnt) ?_ ?_
      · rcases rest with _ | ⟨m, r2⟩
        · exact absurd rfl hrne
        · rw [List.getLast?_cons_cons] at hlast
          exact hlast
      · intro _
        rcases rest with _ | ⟨m, r2⟩
        · simp
        · have hp := (Bool.and_eq_true_iff.mp hnt).1
          simp only [List.head?_cons]
          intro hcon
          injection hcon with hm
          rw [hm] at hp
          simp at hp
    · have hfix : lineFix l = true := (helem l (List.mem_cons_self _ _)).resolve_left hl
      have hrs : rstripL l = l := lineFix_rstrip l hfix
      unfold compactLoop
      rw [if_neg (by simp [List.isEmpty_iff, hrs, hl])]
      rw [hrs, lineFix_proc l hfix]
      congr 1
      apply ih false (fun x hx => helem x (List.mem_cons_of_mem _ hx))
        (noTwoBlank_tail _ _ hnt) ?_ (by intro h; simp at h)
      rcases rest with _ | ⟨m, r2⟩
      · simp
      · rw [List.getLast?_cons_cons] at hlast
        exact hlast

/-- `compact` is the identity on a joined list of fixed lines with single
blank separators and no blank at either end. -/
theorem compact_via (W : List (List Char))
    (helem : ∀ l ∈ W, l = [] ∨ lineFix l = true)
    (hnt : noTwoBlank W = true)
    (hhead : W.head? ≠ some ([] : List Char))
    (hlast : W.getLast? ≠ some ([] : List Char))
    (hnl : ∀ l ∈ W, '\n' ∉ l) :
    compact (joinNl W) = joinNl W := by
  rcases W with _ | ⟨w0, wr⟩
  · rfl
  · show stripL (joinNl (compactLoop false (splitlinesL (joinNl (w0 :: wr)))))
      = joinNl (w0 :: wr)
    rw [splitlines_joinNl _ (by simp) hlast hnl]
    rw [compactLoop_fixed _ false helem hnt hlast (by intro h; simp at h)]
    unfold stripL
    rw [strip_join_left _ helem hnt, dropB_self _ hhead]
    rw [strip_join_right _ helem hnt, dropBLast_self _ hlast]

/-- C10: `compact` is idempotent, and its output never begins or ends with a
blank line and never holds two consecutive blank lines. -/
theorem c10_compact_idempotent (s : List Char) :
    compact (compact s) = compact s ∧
    (splitlinesL (compact s)).head? ≠ some ([] : List Char) ∧
    (splitlinesL (compact s)).getLast? ≠ some ([] : List Char) ∧
    noTwoBlank (splitlinesL (compact s)) = true := by
  have helem : ∀ l ∈ compactLoop false (splitlinesL s), l = [] ∨ lineFix l = true :=
    fun l hl => compactLoop_elem _ false l hl
  have hnt := (compactLoop_struct (splitlinesL s) false).1
  have hnl : ∀ l ∈ compactLoop false (splitlinesL s), '\n' ∉ l :=
    fun l hl => compactLoop_no_nl _ (splitlines_no_nl s) false l hl
  have hVelem : ∀ l ∈ dropBLast (dropB (compactLoop false (splitlinesL s))),
      l = [] ∨ lineFix l = true :=
    fun l hl => helem l (mem_dropB _ _ (mem_dropBLast _ _ hl))
  have hVnt : noTwoBlank (dropBLast (dropB (compactLoop false (splitlinesL s)))) = true :=
    noTwoBlank_dropBLast _ (noTwoBlank_dropB _ hnt)
  have hVhead : (dropBLast (dropB (compactLoop false (splitlinesL s)))).head?
      ≠ some ([] : List Char) := by
    intro hcon
    exact dropB_head_ne_blank _ hnt (head?_dropBLast _ _ hcon)
  have hVlast : (dropBLast (dropB (compactLoop false (splitlinesL s)))).getLast?
      ≠ some ([] : List Char) :=
    dropBLast_getLast_ne_blank _ (noTwoBlank_dropB _ hnt)
  have hVnl : ∀ l ∈ dropBLast (dropB (compactLoop false (splitlinesL s))), '\n' ∉ l :=
    fun l hl => hnl l (mem_dropB _ _ (mem_dropBLast _ _ hl))
  have hT : compact s = joinNl (dropBLast (dropB (compactLoop false (splitlinesL s)))) := by
    show stripL (joinNl (compactLoop false (splitlinesL s))) = _
    unfold stripL
    rw [strip_join_left _ helem hnt]
    exact strip_join_right _ (fun l hl => helem l (mem_dropB _ _ hl))
      (noTwoBlank_dropB _ hnt)
  have hsplit : splitlinesL (compact s)
      = dropBLast (dropB (compactLoop false (splitlinesL s))) := by
    rw [hT]
    rcases hVc : dropBLast (dropB (compactLoop false (splitlinesL s))) with _ | ⟨v0, vr⟩
    · rfl
    · refine splitlines_joinNl _ (by simp) ?_ ?_
      · rw [← hVc]
        exact hVlast
      · rw [← hVc]
        exact hVnl
  refine ⟨?_, ?_, ?_, ?_⟩
  · rw [hT]
    exact compact_via _ hVelem hVnt hVhead hVlast hVnl
  · rw [hsplit]
    exact hVhead
  · rw [hsplit]
    exact hVlast
  · rw [hsplit]
    exact hVnt

/-! ### The renderers (lines 261-328): archive markdown and digest HTML -/

/-- Concatenation of a list of lines lists (the per-source parts of the
builders, appended in order). -/
def catLines : List (List (List Char)) → List (List Char)
  | [] => []
  | x :: xs => x ++ catLines xs

/-- `"".join(...)` (line 317). -/
def catStrs : List (List Char) → List Char
  | [] => []
  | x :: xs => x ++ catStrs xs

/-- One character under Python `html.escape` (quote=True): the five special
characters become entities, sequentially on a whole string, which is the
same as this simultaneous per-character map since no inserted entity is
re-escaped. -/
def escChar (c : Char) : List Char :=
  if c = '&' then str "&amp;"
  else if c = '<' then str "&lt;"
  else if c = '>' then str "&gt;"
  else if c = '"' then str "&quot;"
  else if c = Char.ofNat 39 then str "&#x27;"
  else [c]

/-- Python `html.escape` with the default `quote=True`. -/
def htmlEscape (s : List Char) : List Char := catStrs (s.map escChar)

/-- A character the class `[^\s\)\]]` of `URL_RE` (line 178) accepts. -/
def urlBodyChar (c : Char) : Bool := !(isWs c) && !(c = ')') && !(c = ']')

/-- `URL_RE` after the scheme name: the literal `://` then the greedy
one-or-more run of `[^\s\)\]]`. -/
def urlAfterScheme (pre r : List Char) : Option (List Char) :=
  match r with
  | ':' :: '/' :: '/' :: rest =>
    let body := rest.takeWhile urlBodyChar
    if body.isEmpty then none else some (pre ++ str "://" ++ body)
  | _ => none

/-- `URL_RE = https?://[^\s\)\]]+` anchored at the head of `l`.  After
`http`, an `s` is consumed when present; backtracking to the bare `http`
reading could only help if the `s` were also a `:`, which is impossible, so
no fallback branch is needed. -/
def urlAt (l : List Char) : Option (List Char) :=
  match l with
  | 'h' :: 't' :: 't' :: 'p' :: rest =>
    match rest with
    | 's' :: r2 => urlAfterScheme (str "https") r2
    | _ => urlAfterScheme (str "http") rest
  | _ => none

/-- `first_url` (lines 206-208): `re.search` takes the leftmost match. -/
def first_url : List Char → Option (List Char)
  | [] => none
  | c :: r =>
    match urlAt (c :: r) with
    | some u => some u
    | none => first_url r

/-- Python `x or y` on strings (an empty string is falsy). -/
def pyOrS (a b : List Char) : List Char := if a.isEmpty then b else a

/-- Line 310: the `<li>` rendered for one TLDR (title, url) pair. -/
def liTldr (tu : List Char × List Char) : List Char :=
  str "<li><a href='" ++ htmlEscape tu.2 ++ str "' target='_blank'>" ++
    htmlEscape tu.1 ++ str "</a></li>"

/-- Line 317: the `<li>` rendered for one bare headline (no link). -/
def liHead (h : List Char) : List Char := str "<li>" ++ htmlEscape h ++ str "</li>"

/-- Lines 325-326: the `<li>` for one (title, body) topic; the link is the
body's first URL, else the message permalink, else `#`. -/
def liTopic (gmail : List Char) (tb : List Char × List Char) : List Char :=
  str "<li><a href='" ++
    htmlEscape (pyOrS (pyOrS ((first_url tb.2).getD []) gmail) (str "#")) ++
    str "' target='_blank'>" ++ htmlEscape tb.1 ++ str "</a></li>"

/-- The parts `build_html_email_headlines` (lines 296-327) appends for one
canonical source: the `<h2>` header, then per the branch structure of the
loop body. -/
def sourceSectionHtml (canon : List Char) (o : Option Item) : List (List Char) :=
  (str "<h2 class='src'>" ++ htmlEscape canon ++ str "</h2>") ::
  match o with
  | none => [str "<p><em>No email found for today.</em></p>"]
  | some it =>
    let topics := split_topics it.content
    let items := extract_tldr_items it.content
    if canon = str "TLDR AI" ∧ topics = [] ∧ items ≠ [] then
      str "<ul>" :: (items.map liTldr ++ [str "</ul>"])
    else if topics = [] then
      let heads := extract_headlines it.content
      if heads ≠ [] then
        [str "<ul>" ++ catStrs (heads.map liHead) ++ str "</ul>"]
      else
        [str "<p><em>No structured topics detected.</em></p>"]
    else
      str "<ul>" :: (topics.map (liTopic it.gmailLink) ++ [str "</ul>"])

/-- The lines `build_md_archive` (lines 264-280) appends for one canonical
source: the `## canon` heading, then per the branch structure of the loop
body. -/
def sourceSectionMd (canon : List Char) (o : Option Item) : List (List Char) :=
  (str "## " ++ canon) ::
  match o with
  | none => [str "*No email found for today.*"]
  | some it =>
    let topics := split_topics it.content
    let items := extract_tldr_items it.content
    if topics = [] then
      if canon = str "TLDR AI" ∧ items ≠ [] then
        items.map (fun tu => str "- " ++ tu.1) ++ [str ""]
      else
        [compact it.content, str ""]
    else
      topics.map (fun tb => str "- " ++ tb.1) ++ [str ""]

/-- The triple-quoted `style` block of lines 285-294. -/
def styleStr : List Char :=
  str "\n    <style>\n      body\x7bfont-family:system-ui,-apple-system,Segoe UI,Roboto,Arial,sans-serif\x7d\n      h1,h2\x7bmargin:0.4em 0\x7d\n      .src\x7bmargin:16px 0 8px 0\x7d\n      ul\x7bmargin:6px 0 10px 18px\x7d\n      a\x7bcolor:#0b57d0;text-decoration:none\x7d\n      a:hover\x7btext-decoration:underline\x7d\n    </style>\n    "

/-- `build_md_archive` (lines 261-281), with the day string a parameter. -/
def build_md_archive (today : List Char) (per : List Char → Option Item) : List Char :=
  compact (joinNl ((str "# AI Daily Digest — " ++ today) :: str "" ::
    catLines (CANONICAL_SOURCES.map fun c => sourceSectionMd c (per c))))

/-- `build_html_email_headlines` (lines 283-328), with the day string a
parameter. -/
def build_html_email_headlines (today : List Char) (per : List Char → Option Item) : List Char :=
  joinNl (styleStr ::
    (str "<h1>AI Daily Digest — " ++ htmlEscape today ++ str "</h1>") ::
    catLines (CANONICAL_SOURCES.map fun c => sourceSectionHtml c (per c)))

/-- The per-line core of a heading mark: the stripped capture when it is at
least 6 characters long (the shared test of lines 183-186 and 194-197). -/
def smallF (ln : List Char) : Option (List Char) :=
  match headCapture ln with
  | some t => if 6 ≤ t.length then some t else none
  | none => none

/-- The `filterMap` body of `marksOf`, named. -/
def markF (p : Nat × List Char) : Option (Nat × List Char) :=
  match headCapture p.2 with
  | some t => if 6 ≤ t.length then some (p.1, t) else none
  | none => none

theorem marksOf_eq (lines : List (List Char)) :
    marksOf lines = lines.enum.filterMap markF := rfl

/-- `markF` only packages the line index next to `smallF`. -/
theorem markF_eq (i : Nat) (ln : List Char) :
    markF (i, ln) = (smallF ln).map fun t => (i, t) := by
  rcases h : headCapture ln with _ | t
  · simp [markF, smallF, h]
  · simp only [markF, smallF, h]
    by_cases h6 : 6 ≤ t.length
    · rw [if_pos h6, if_pos h6]
      rfl
    · rw [if_neg h6, if_neg h6]
      rfl

/-- If the marks of an (enumerated) line list are empty, no line passes the
mark test. -/
theorem filterMap_markF_nil : ∀ (lines : List (List Char)) (k : Nat),
    (List.enumFrom k lines).filterMap markF = [] →
    ∀ ln ∈ lines, smallF ln = none := by
  intro lines
  induction lines with
  | nil =>
    intro k h ln hln
    simp at hln
  | cons l rest ih =>
    intro k h ln hln
    simp only [List.enumFrom, List.filterMap_cons] at h
    rcases hm : markF (k, l) with _ | b
    · simp only [hm] at h
      rcases List.mem_cons.mp hln with hln | hln
      · subst hln
        have he := markF_eq k ln
        rw [hm] at he
        rcases hs : smallF ln with _ | t
        · rfl
        · rw [hs] at he
          simp at he
      · exact ih (k + 1) h ln hln
    · simp only [hm] at h
      exact absurd h (List.cons_ne_nil _ _)

/-- `marksOf lines = []` means every line fails the mark test. -/
theorem marksOf_nil_smallF (lines : List (List Char)) (h : marksOf lines = []) :
    ∀ ln ∈ lines, smallF ln = none :=
  filterMap_markF_nil lines 0 h

/-- When no line passes the mark test, `extract_headlines`'s loop keeps
nothing either: its per-line test is the same capture and the same length
threshold. -/
theorem extractHeadsGo_smallF_none : ∀ (lines : List (List Char)),
    (∀ ln ∈ lines, smallF ln = none) → ∀ seen, extractHeadsGo lines seen = [] := by
  intro lines
  induction lines with
  | nil =>
    intro _ seen
    rfl
  | cons l rest ih =>
    intro h seen
    have hl := h l (List.mem_cons_self _ _)
    have hrest : ∀ ln ∈ rest, smallF ln = none :=
      fun ln hln => h ln (List.mem_cons_of_mem _ hln)
    rcases hc : headCapture l with _ | t
    · have hred : extractHeadsGo (l :: rest) seen = extractHeadsGo rest seen := by
        rw [extractHeadsGo]
        rw [hc]
      rw [hred]
      exact ih hrest seen
    · have h6 : ¬ 6 ≤ t.length := by
        intro h6
        unfold smallF at hl
        simp only [hc, if_pos h6] at hl
        exact Option.noConfusion hl
      have hred : extractHeadsGo (l :: rest) seen =
          if (decide (6 ≤ t.length) && !seen.contains t) = true then
            t :: extractHeadsGo rest (t :: seen)
          else extractHeadsGo rest seen := by
        rw [extractHeadsGo]
        rw [hc]
      rw [hred, if_neg (by simp [h6])]
      exact ih hrest seen

/-- C7: renderer fallback chain, amended.  A document with zero heading
markers yields no topics AND no detected headlines (the generic headline
detector applies the same three patterns with the same length threshold),
so for such a document the digest shows the placeholder — the headline-only
list arises only when segmentation yields no topics while markers exist
(all bodies blank).  The arms: (1) zero marks kill both extractors; (2) no
topics but some headlines (non-TLDR, or TLDR without resolved items) →
headline-only list without links; (3) no topics and no headlines →
placeholder; (4) no topics (non-TLDR, or TLDR without items) → archive
holds the compacted raw text; (5) TLDR with no topics but resolved (title,
url) pairs → the pairs are used in both renderings. -/
theorem c7_renderer_fallback :
    (∀ md : List Char, marksOf (splitlinesL md) = [] →
        split_topics md = [] ∧ extract_headlines md = []) ∧
    (∀ (canon : List Char) (it : Item), split_topics it.content = [] →
        (canon = str "TLDR AI" → extract_tldr_items it.content = []) →
        extract_headlines it.content ≠ [] →
        sourceSectionHtml canon (some it) =
          [str "<h2 class='src'>" ++ htmlEscape canon ++ str "</h2>",
           str "<ul>" ++ catStrs ((extract_headlines it.content).map liHead) ++
             str "</ul>"]) ∧
    (∀ (canon : List Char) (it : Item), split_topics it.content = [] →
        (canon = str "TLDR AI" → extract_tldr_items it.content = []) →
        extract_headlines it.content = [] →
        sourceSectionHtml canon (some it) =
          [str "<h2 class='src'>" ++ htmlEscape canon ++ str "</h2>",
           str "<p><em>No structured topics detected.</em></p>"]) ∧
    (∀ (canon : List Char) (it : Item), split_topics it.content = [] →
        (canon = str "TLDR AI" → extract_tldr_items it.content = []) →
        sourceSectionMd canon (some it) =
          [str "## " ++ canon, compact it.content, str ""]) ∧
    (∀ it : Item, split_topics it.content = [] →
        extract_tldr_items it.content ≠ [] →
        sourceSectionHtml (str "TLDR AI") (some it) =
          (str "<h2 class='src'>" ++ htmlEscape (str "TLDR AI") ++ str "</h2>") ::
            str "<ul>" :: ((extract_tldr_items it.content).map liTldr ++
              [str "</ul>"]) ∧
        sourceSectionMd (str "TLDR AI") (some it) =
          (str "## " ++ str "TLDR AI") ::
            ((extract_tldr_items it.content).map (fun tu => str "- " ++ tu.1) ++
              [str ""])) := by
  refine ⟨?_, ?_, ?_, ?_, ?_⟩
  · intro md h
    constructor
    · unfold split_topics
      simp [h]
    · exact extractHeadsGo_smallF_none _ (marksOf_nil_smallF _ h) []
  · intro canon it ht htl hh
    simp only [sourceSectionHtml]
    rw [if_neg (by rintro ⟨h1, h2, h3⟩; exact h3 (htl h1)), if_pos ht, if_pos hh]
  · intro canon it ht htl hh
    simp only [sourceSectionHtml]
    rw [if_neg (by rintro ⟨h1, h2, h3⟩; exact h3 (htl h1)), if_pos ht, if_neg (by
      intro hcon; exact hcon hh)]
  · intro canon it ht htl
    simp only [sourceSectionMd]
    rw [if_pos ht, if_neg (by rintro ⟨h1, h2⟩; exact h2 (htl h1))]
  · intro it ht hi
    constructor
    · simp only [sourceSectionHtml]
      rw [if_pos ⟨trivial, ht, hi⟩]
    · simp only [sourceSectionMd]
      rw [if_pos ht, if_pos ⟨trivial, hi⟩]

/-- A document with zero heading markers and nonempty text: the digest
section for it is the placeholder, not a headline-only list. -/
theorem c7_zero_marks_placeholder :
    marksOf (splitlinesL
      (str "Plain words only, nothing resembling a heading here.")) = [] ∧
    str "Plain words only, nothing resembling a heading here." ≠ [] ∧
    sourceSectionHtml (str "The Neuron")
      (some ⟨str "The Neuron", str "s",
        str "Plain words only, nothing resembling a heading here.",
        str "", 0⟩) =
      [str "<h2 class='src'>The Neuron</h2>",
       str "<p><em>No structured topics detected.</em></p>"] := by
  refine ⟨by decide, by decide, by decide⟩

/-! ### C8: re-extracting from synthetic bold headings -/

/-- The claim's synthetic wrapper: `**<title>**`. -/
def wrapBold (t : List Char) : List Char := str "**" ++ t ++ str "**"

/-- `takeWhile` swallows exactly a prefix all of whose characters pass when
the next character fails. -/
theorem takeWhile_all_append (p : Char → Bool) (d : Char) (hd : p d = false) :
    ∀ (t l : List Char), (∀ c ∈ t, p c = true) → (t ++ d :: l).takeWhile p = t := by
  intro t
  induction t with
  | nil =>
    intro l h
    simp [List.takeWhile_cons, hd]
  | cons c t ih =>
    intro l h
    have hc := h c (List.mem_cons_self _ _)
    simp [List.takeWhile_cons, hc, ih l fun x hx => h x (List.mem_cons_of_mem _ hx)]

/-- The bold core fails when the second character is not a star. -/
theorem hbCore_not_open (c0 : Char) (h : ¬ c0 = '*') (r : List Char) :
    hbCore ('*' :: c0 :: r) = none := by
  rw [hbCore.eq_def]
  split
  · rename_i rest heq
    injection heq with h1 h2
    injection h2 with h3 h4
    exact absurd h3 h
  · rfl

/-- The bold core on an opened line, with the let layer unfolded. -/
theorem hbCore_eq (rest : List Char) :
    hbCore ('*' :: '*' :: rest) =
      (if 6 ≤ (rest.takeWhile fun c => !(c = '*')).length then
        match rest.drop (rest.takeWhile fun c => !(c = '*')).length with
        | '*' :: '*' :: tail =>
          if tail.all isWs then some (rest.takeWhile fun c => !(c = '*')) else none
        | _ => none
      else none) := rfl

/-- The bold core accepts a wrapped star-free title of length at least 6 and
captures exactly the title. -/
theorem hbCore_wrap (t : List Char) (h6 : 6 ≤ t.length) (hstar : '*' ∉ t) :
    hbCore ('*' :: '*' :: (t ++ str "**")) = some t := by
  rw [hbCore]
  have htw : (t ++ str "**").takeWhile (fun c => !(c = '*')) = t := by
    have h2 : str "**" = '*' :: '*' :: ([] : List Char) := rfl
    rw [h2]
    exact takeWhile_all_append _ '*' (by decide) t ['*'] fun c hc => by
      have hne : ¬ c = '*' := fun he => hstar (he ▸ hc)
      simp [hne]
  simp only [htw]
  rw [if_pos h6, List.drop_left]
  rfl

/-- Inversion for the bold core: the line was opened by `**` and the capture
is the maximal star-free run after it. -/
theorem hbCore_some (l h : List Char) (hh : hbCore l = some h) :
    ∃ rest, l = '*' :: '*' :: rest ∧ h = rest.takeWhile fun c => !(c = '*') := by
  rw [hbCore.eq_def] at hh
  split at hh
  · rename_i rest
    refine ⟨rest, rfl, ?_⟩
    have hh2 : (if 6 ≤ (rest.takeWhile fun c => !(c = '*')).length then
        match rest.drop (rest.takeWhile fun c => !(c = '*')).length with
        | '*' :: '*' :: tail =>
          if tail.all isWs then some (rest.takeWhile fun c => !(c = '*')) else none
        | _ => none
      else none) = some h := hh
    clear hh
    by_cases h6 : 6 ≤ (rest.takeWhile fun c => !(c = '*')).length
    · rw [if_pos h6] at hh2
      split at hh2
      · rename_i tail heq2
        by_cases hw : tail.all isWs
        · rw [if_pos hw] at hh2
          exact (Option.some.injEq _ _ ▸ hh2).symm
        · rw [if_neg hw] at hh2
          exact absurd hh2 (by simp)
      · exact absurd hh2 (by simp)
    · rw [if_neg h6] at hh2
      exact absurd hh2 (by simp)
  · exact absurd hh (by simp)

/-- `HEADLINE_BOLD` on a wrapped star-free stripped title matches and
captures exactly the title: the first star is tried as a bullet, the inner
text opens with a non-star so that reading fails, and the fallback reads the
line as `**title**`. -/
theorem hbMatch_wrap (c0 : Char) (t' : List Char)
    (h6 : 6 ≤ (c0 :: t').length) (hstar : '*' ∉ (c0 :: t')) :
    hbMatch ('*' :: '*' :: ((c0 :: t') ++ str "**")) = some (c0 :: t') := by
  have hc0 : ¬ c0 = '*' := fun he => hstar (he ▸ List.mem_cons_self _ _)
  have hafter : hbAfterBullet ('*' :: ((c0 :: t') ++ str "**")) = none := by
    unfold hbAfterBullet
    rw [List.dropWhile_cons_of_neg (by decide)]
    exact hbCore_not_open c0 hc0 _
  have hred : hbMatch ('*' :: '*' :: ((c0 :: t') ++ str "**")) =
      match hbAfterBullet ('*' :: ((c0 :: t') ++ str "**")) with
      | some h => some h
      | none => hbCore ('*' :: '*' :: ((c0 :: t') ++ str "**")) := rfl
  rw [hred, hafter]
  exact hbCore_wrap _ h6 hstar

/-- The shared capture chain on a wrapped star-free stripped title. -/
theorem headCapture_wrapBold (t : List Char) (h6 : 6 ≤ t.length)
    (hstar : '*' ∉ t) (hs : stripL t = t) :
    headCapture (wrapBold t) = some t := by
  rcases t with _ | ⟨c0, t'⟩
  · exact absurd h6 (by decide)
  · have hbm := hbMatch_wrap c0 t' h6 hstar
    have hw : wrapBold (c0 :: t') = '*' :: '*' :: ((c0 :: t') ++ str "**") := rfl
    unfold headCapture
    rw [hw]
    simp only [hbm]
    rw [hs]

/-- `strip` keeps only characters of its input. -/
theorem stripL_subset (l : List Char) : ∀ c ∈ stripL l, c ∈ l := by
  intro c hc
  unfold stripL at hc
  obtain ⟨zs, hz⟩ := rstripL_append_exists (l.dropWhile isWs)
  have hm : c ∈ l.dropWhile isWs := by
    rw [← hz]
    exact List.mem_append_left _ hc
  exact (List.dropWhile_sublist isWs).subset hm

/-- The bullet-skipping bold reading captures only characters of its input. -/
theorem hbAfterBullet_subset (r h : List Char) (hh : hbAfterBullet r = some h) :
    ∀ c ∈ h, c ∈ r := by
  unfold hbAfterBullet at hh
  obtain ⟨rest, heq, hcap⟩ := hbCore_some _ _ hh
  intro c hc
  have h1 : c ∈ rest := by
    rw [hcap] at hc
    exact (List.takeWhile_sublist _).subset hc
  have h2 : c ∈ r.dropWhile isWs := by
    rw [heq]
    exact List.mem_cons_of_mem _ (List.mem_cons_of_mem _ h1)
  exact (List.dropWhile_sublist isWs).subset h2

/-- `HEADLINE_BOLD`'s capture uses only characters of the line. -/
theorem hbMatch_subset (ln h : List Char) (hh : hbMatch ln = some h) :
    ∀ c ∈ h, c ∈ ln := by
  have hcore : ∀ x ∈ h, hbCore (ln.dropWhile isWs) = some h → x ∈ ln := by
    intro x hx hc
    obtain ⟨rest, heq, hcap⟩ := hbCore_some _ _ hc
    have h1 : x ∈ rest := by
      rw [hcap] at hx
      exact (List.takeWhile_sublist _).subset hx
    have h2 : x ∈ ln.dropWhile isWs := by
      rw [heq]
      exact List.mem_cons_of_mem _ (List.mem_cons_of_mem _ h1)
    exact (List.dropWhile_sublist isWs).subset h2
  have hh2 : (match ln.dropWhile isWs with
      | [] => none
      | c :: r =>
        if c = '-' then hbAfterBullet r
        else if c = '*' then
          match hbAfterBullet r with
          | some h0 => some h0
          | none => hbCore (ln.dropWhile isWs)
        else hbCore (ln.dropWhile isWs)) = some h := hh
  clear hh
  intro c hc
  split at hh2
  · exact absurd hh2 (by simp)
  · rename_i c1 r heq
    have hr : ∀ x ∈ h, x ∈ r → x ∈ ln := fun x hx hxr =>
      (List.dropWhile_sublist isWs).subset (heq ▸ List.mem_cons_of_mem _ hxr)
    by_cases hd : c1 = '-'
    · rw [if_pos hd] at hh2
      exact hr c hc (hbAfterBullet_subset _ _ hh2 c hc)
    · rw [if_neg hd] at hh2
      by_cases hst : c1 = '*'
      · rw [if_pos hst] at hh2
        rcases hab : hbAfterBullet r with _ | h0
        · rw [hab] at hh2
          exact hcore c hc hh2
        · rw [hab] at hh2
          have hEq : h0 = h := Option.some.injEq _ _ ▸ hh2
          rw [hEq] at hab
          exact hr c hc (hbAfterBullet_subset _ _ hab c hc)
      · rw [if_neg hst] at hh2
        exact hcore c hc hh2

/-- `HEADLINE_MINREAD`'s capture is a prefix of the line. -/
theorem hmMatch_some (ln h : List Char) (hh : hmMatch ln = some h) :
    ∃ k, h = ln.take k := by
  rcases ln with _ | ⟨c, r⟩
  · exact absurd hh (by simp [hmMatch])
  · have hh2 : (if c.isAlpha then
        (List.range ((c :: r).length + 1)).findSome? fun k =>
          if 2 ≤ k && (((c :: r).take k).drop 1).all (fun c2 => !(c2 = '\n'))
              && minreadTail ((c :: r).drop k) then
            some ((c :: r).take k)
          else none
      else none) = some h := hh
    clear hh
    by_cases ha : c.isAlpha
    · rw [if_pos ha] at hh2
      obtain ⟨k, hk, hfk⟩ := List.exists_of_findSome?_eq_some hh2
      split at hfk
      · exact ⟨k, (Option.some.injEq _ _ ▸ hfk).symm⟩
      · exact absurd hfk (by simp)
    · rw [if_neg ha] at hh2
      exact absurd hh2 (by simp)

/-- `SECTION_H2`'s capture uses only characters of the line. -/
theorem s2Match_subset (ln h : List Char) (hh : s2Match ln = some h) :
    ∀ c ∈ h, c ∈ ln := by
  rw [s2Match.eq_def] at hh
  intro c hc
  split at hh
  · rename_i rest
    split at hh
    · exact absurd hh (by simp)
    · rename_i c1 r
      by_cases hw : isWs c1
      · rw [if_pos hw] at hh
        have hh2 : (if ((c1 :: r).dropWhile isWs).isEmpty then
            (match (c1 :: r).getLast? with
             | some d => some [d]
             | none => none)
          else some (rstripL ((c1 :: r).dropWhile isWs))) = some h := hh
        clear hh
        by_cases he : ((c1 :: r).dropWhile isWs).isEmpty
        · rw [if_pos he] at hh2
          split at hh2
          · rename_i d heqd
            have hhd : h = [d] := (Option.some.injEq _ _ ▸ hh2).symm
            rw [hhd] at hc
            have : c = d := List.mem_singleton.mp hc
            rw [this]
            exact List.mem_cons_of_mem _ (List.mem_cons_of_mem _
              (List.mem_of_getLast?_eq_some heqd))
          · exact absurd hh2 (by simp)
        · rw [if_neg he] at hh2
          have hhm : h = rstripL ((c1 :: r).dropWhile isWs) :=
            (Option.some.injEq _ _ ▸ hh2).symm
          rw [hhm] at hc
          obtain ⟨zs, hz⟩ := rstripL_append_exists ((c1 :: r).dropWhile isWs)
          have h1 : c ∈ (c1 :: r).dropWhile isWs := by
            rw [← hz]
            exact List.mem_append_left _ hc
          exact List.mem_cons_of_mem _ (List.mem_cons_of_mem _
            ((List.dropWhile_sublist isWs).subset h1))
      · rw [if_neg hw] at hh
        exact absurd hh (by simp)
  · exact absurd hh (by simp)

/-- The shared capture chain only returns characters of the line. -/
theorem headCapture_subset (ln t : List Char) (hh : headCapture ln = some t) :
    ∀ c ∈ t, c ∈ ln := by
  unfold headCapture at hh
  intro c hc
  rcases hb : hbMatch ln with _ | h
  · rw [hb] at hh
    rcases hm : hmMatch ln with _ | h
    · rw [hm] at hh
      rcases hs2 : s2Match ln with _ | h
      · rw [hs2] at hh
        exact absurd hh (by simp)
      · rw [hs2] at hh
        have ht : t = stripL h := (Option.some.injEq _ _ ▸ hh).symm
        rw [ht] at hc
        exact s2Match_subset ln h hs2 c (stripL_subset h c hc)
    · rw [hm] at hh
      have ht : t = stripL h := (Option.some.injEq _ _ ▸ hh).symm
      rw [ht] at hc
      obtain ⟨k, hk⟩ := hmMatch_some ln h hm
      have h1 : c ∈ h := stripL_subset h c hc
      rw [hk] at h1
      exact List.take_subset k ln h1
  · rw [hb] at hh
    have ht : t = stripL h := (Option.some.injEq _ _ ▸ hh).symm
    rw [ht] at hc
    exact hbMatch_subset ln h hb c (stripL_subset h c hc)

/-- The shared capture chain returns strip-fixed text. -/
theorem headCapture_stripped (ln t : List Char) (hh : headCapture ln = some t) :
    stripL t = t := by
  unfold headCapture at hh
  rcases hb : hbMatch ln with _ | h
  · rw [hb] at hh
    rcases hm : hmMatch ln with _ | h
    · rw [hm] at hh
      rcases hs2 : s2Match ln with _ | h
      · rw [hs2] at hh
        exact absurd hh (by simp)
      · rw [hs2] at hh
        have ht : t = stripL h := (Option.some.injEq _ _ ▸ hh).symm
        rw [ht]
        exact stripL_idem h
    · rw [hm] at hh
      have ht : t = stripL h := (Option.some.injEq _ _ ▸ hh).symm
      rw [ht]
      exact stripL_idem h
  · rw [hb] at hh
    have ht : t = stripL h := (Option.some.injEq _ _ ▸ hh).symm
    rw [ht]
    exact stripL_idem h

/-- Every kept headline comes from a capture on some line, is at least 6
characters long, and was not already seen. -/
theorem extractHeadsGo_out : ∀ (lines seen : List (List Char)) (t : List Char),
    t ∈ extractHeadsGo lines seen →
    (∃ ln ∈ lines, headCapture ln = some t) ∧ 6 ≤ t.length ∧ t ∉ seen := by
  intro lines
  induction lines with
  | nil =>
    intro seen t ht
    rw [extractHeadsGo] at ht
    exact absurd ht (by simp)
  | cons l rest ih =>
    intro seen t ht
    rcases hc : headCapture l with _ | h
    · have hred : extractHeadsGo (l :: rest) seen = extractHeadsGo rest seen := by
        rw [extractHeadsGo, hc]
      rw [hred] at ht
      obtain ⟨⟨ln, hln, hcap⟩, h6, hns⟩ := ih seen t ht
      exact ⟨⟨ln, List.mem_cons_of_mem _ hln, hcap⟩, h6, hns⟩
    · have hred : extractHeadsGo (l :: rest) seen =
          if (decide (6 ≤ h.length) && !seen.contains h) = true then
            h :: extractHeadsGo rest (h :: seen)
          else extractHeadsGo rest seen := by
        rw [extractHeadsGo, hc]
      rw [hred] at ht
      by_cases hcond : (decide (6 ≤ h.length) && !seen.contains h) = true
      · rw [if_pos hcond] at ht
        have h6 : 6 ≤ h.length := of_decide_eq_true (Bool.and_eq_true_iff.mp hcond).1
        have hnseen : h ∉ seen := by
          intro hmem
          have h2 := (Bool.and_eq_true_iff.mp hcond).2
          have h3 : seen.contains h = true := List.elem_iff.mpr hmem
          rw [h3] at h2
          exact absurd h2 (by decide)
        rcases List.mem_cons.mp ht with h1 | h1
        · subst h1
          exact ⟨⟨l, List.mem_cons_self _ _, hc⟩, h6, hnseen⟩
        · obtain ⟨⟨ln, hln, hcap⟩, h6t, hns⟩ := ih (h :: seen) t h1
          exact ⟨⟨ln, List.mem_cons_of_mem _ hln, hcap⟩, h6t,
            fun hm => hns (List.mem_cons_of_mem _ hm)⟩
      · rw [if_neg hcond] at ht
        obtain ⟨⟨ln, hln, hcap⟩, h6, hns⟩ := ih seen t ht
        exact ⟨⟨ln, List.mem_cons_of_mem _ hln, hcap⟩, h6, hns⟩

/-- The kept headlines are pairwise distinct (the seen set dedups). -/
theorem extractHeadsGo_nodup : ∀ (lines seen : List (List Char)),
    (extractHeadsGo lines seen).Nodup := by
  intro lines
  induction lines with
  | nil =>
    intro seen
    rw [extractHeadsGo]
    exact List.nodup_nil
  | cons l rest ih =>
    intro seen
    rcases hc : headCapture l with _ | h
    · have hred : extractHeadsGo (l :: rest) seen = extractHeadsGo rest seen := by
        rw [extractHeadsGo, hc]
      rw [hred]
      exact ih seen
    · have hred : extractHeadsGo (l :: rest) seen =
          if (decide (6 ≤ h.length) && !seen.contains h) = true then
            h :: extractHeadsGo rest (h :: seen)
          else extractHeadsGo rest seen := by
        rw [extractHeadsGo, hc]
      rw [hred]
      by_cases hcond : (decide (6 ≤ h.length) && !seen.contains h) = true
      · rw [if_pos hcond]
        refine List.nodup_cons.mpr ⟨?_, ih (h :: seen)⟩
        intro hmem
        exact (extractHeadsGo_out rest (h :: seen) h hmem).2.2 (List.mem_cons_self _ _)
      · rw [if_neg hcond]
        exact ih seen

/-- On a list of wrapped titles that each capture back to themselves, the
headline loop returns exactly the titles. -/
theorem extractHeadsGo_wrap : ∀ (ts seen : List (List Char)),
    (∀ t ∈ ts, headCapture (wrapBold t) = some t) →
    (∀ t ∈ ts, 6 ≤ t.length) → ts.Nodup → (∀ t ∈ ts, t ∉ seen) →
    extractHeadsGo (ts.map wrapBold) seen = ts := by
  intro ts
  induction ts with
  | nil =>
    intro seen _ _ _ _
    rfl
  | cons t ts ih =>
    intro seen hcap h6 hnd hdisj
    have hct := hcap t (List.mem_cons_self _ _)
    have h6t := h6 t (List.mem_cons_self _ _)
    have hnseent := hdisj t (List.mem_cons_self _ _)
    rw [List.map_cons]
    have hred : extractHeadsGo (wrapBold t :: ts.map wrapBold) seen =
        if (decide (6 ≤ t.length) && !seen.contains t) = true then
          t :: extractHeadsGo (ts.map wrapBold) (t :: seen)
        else extractHeadsGo (ts.map wrapBold) seen := by
      rw [extractHeadsGo, hct]
    have hcond : (decide (6 ≤ t.length) && !seen.contains t) = true := by
      refine Bool.and_eq_true_iff.mpr ⟨decide_eq_true h6t, ?_⟩
      rcases hsc : seen.contains t with _ | _
      · rfl
      · exact absurd (List.elem_iff.mp hsc) hnseent
    rw [hred, if_pos hcond]
    congr 1
    refine ih (t :: seen) (fun u hu => hcap u (List.mem_cons_of_mem _ hu))
      (fun u hu => h6 u (List.mem_cons_of_mem _ hu)) (List.nodup_cons.mp hnd).2 ?_
    intro u hu hm
    rcases List.mem_cons.mp hm with h1 | h1
    · exact (List.nodup_cons.mp hnd).1 (h1 ▸ hu)
    · exact hdisj u (List.mem_cons_of_mem _ hu) h1

/-- The mark list has consecutive line indices `k, k+1, ...` ending exactly
at line `n - 1`. -/
def consecB (n : Nat) : Nat → List (Nat × List Char) → Bool
  | k, [] => decide (k = n)
  | k, (i, _) :: rest => decide (i = k) && consecB n (k + 1) rest

/-- When every line of the document is a heading mark, the marks are the
consecutive indices, so every topic body is the empty slice between
adjacent marks and `topicsGo` drops everything. -/
theorem topicsGo_consec (lines : List (List Char)) :
    ∀ (marks : List (Nat × List Char)) (k : Nat),
      consecB lines.length k marks = true → topicsGo lines marks = [] := by
  intro marks
  induction marks with
  | nil =>
    intro k h
    rfl
  | cons m rest ih =>
    intro k h
    obtain ⟨i, t⟩ := m
    rw [consecB] at h
    obtain ⟨h1, h2⟩ := Bool.and_eq_true_iff.mp h
    have hik : i = k := of_decide_eq_true h1
    rw [← hik] at h2
    have hnext : nextMark lines rest = i + 1 := by
      rcases rest with _ | ⟨⟨i2, t2⟩, r2⟩
      · rw [consecB] at h2
        have hn : i + 1 = lines.length := of_decide_eq_true h2
        rw [nextMark, ← hn]
      · rw [consecB] at h2
        have hn : i2 = i + 1 := of_decide_eq_true (Bool.and_eq_true_iff.mp h2).1
        rw [nextMark, hn]
    have hbody : bodyAt lines i (i + 1) = [] := by
      unfold bodyAt
      rw [Nat.sub_self, List.take_zero]
      rfl
    rw [topicsGo, hnext, hbody]
    simp only [List.isEmpty_nil, if_true, List.nil_append]
    exact ih (i + 1) h2

/-- When every line passes the mark test, the enumerated mark list carries
the consecutive indices. -/
theorem markF_consec : ∀ (lines : List (List Char)) (k : Nat),
    (∀ ln ∈ lines, (smallF ln).isSome) →
    consecB (k + lines.length) k ((List.enumFrom k lines).filterMap markF) = true := by
  intro lines
  induction lines with
  | nil =>
    intro k h
    simp [consecB]
  | cons ln rest ih =>
    intro k h
    have hl := h ln (List.mem_cons_self _ _)
    obtain ⟨t, htt⟩ := Option.isSome_iff_exists.mp hl
    simp only [List.enumFrom, List.filterMap_cons, markF_eq, htt, Option.map_some']
    rw [consecB]
    refine Bool.and_eq_true_iff.mpr ⟨by simp, ?_⟩
    rw [List.length_cons]
    have hlen : k + (rest.length + 1) = (k + 1) + rest.length := by omega
    rw [hlen]
    exact ih (k + 1) fun u hu => h u (List.mem_cons_of_mem _ hu)

/-- C8: segmentation round-trip, amended.  Wrapping the extracted titles in
synthetic `**...**` markers and re-extracting reproduces the titles only
when no title itself contains a `*` (the bold capture class `[^*]{6,}`
cannot cross a star); under that proviso the headline extraction
round-trips exactly, while re-SEGMENTING the synthetic document always
yields zero topics, because every line is a heading and every body is the
empty slice between adjacent headings. -/
theorem c8_segmentation_roundtrip (md : List Char)
    (hstar : ∀ t ∈ extract_headlines md, '*' ∉ t) :
    extract_headlines (joinNl ((extract_headlines md).map wrapBold)) =
      extract_headlines md ∧
    split_topics (joinNl ((extract_headlines md).map wrapBold)) = [] := by
  have hout : ∀ t ∈ extract_headlines md,
      (∃ ln ∈ splitlinesL md, headCapture ln = some t) ∧ 6 ≤ t.length ∧
        t ∉ ([] : List (List Char)) :=
    fun t ht => extractHeadsGo_out _ _ t ht
  have h6 : ∀ t ∈ extract_headlines md, 6 ≤ t.length := fun t ht => (hout t ht).2.1
  have hstrip : ∀ t ∈ extract_headlines md, stripL t = t := by
    intro t ht
    obtain ⟨⟨ln, hln, hcap⟩, -, -⟩ := hout t ht
    exact headCapture_stripped ln t hcap
  have hnl : ∀ t ∈ extract_headlines md, '\n' ∉ t := by
    intro t ht hmem
    obtain ⟨⟨ln, hln, hcap⟩, -, -⟩ := hout t ht
    exact splitlines_no_nl md ln hln (headCapture_subset ln t hcap '\n' hmem)
  have hnd : (extract_headlines md).Nodup := extractHeadsGo_nodup _ _
  have hcap : ∀ t ∈ extract_headlines md, headCapture (wrapBold t) = some t :=
    fun t ht => headCapture_wrapBold t (h6 t ht) (hstar t ht) (hstrip t ht)
  by_cases hE : extract_headlines md = []
  · rw [hE]
    exact ⟨rfl, rfl⟩
  · have hsplit : splitlinesL (joinNl ((extract_headlines md).map wrapBold)) =
        (extract_headlines md).map wrapBold := by
      apply splitlines_joinNl
      · simp [hE]
      · intro hcon
        have hmem : ([] : List Char) ∈ (extract_headlines md).map wrapBold :=
          List.mem_of_getLast?_eq_some hcon
        obtain ⟨t, ht, hw⟩ := List.mem_map.mp hmem
        exact absurd hw (by simp [wrapBold, str])
      · intro l hl
        obtain ⟨t, ht, hw⟩ := List.mem_map.mp hl
        rw [← hw]
        intro hmem
        rcases List.mem_append.mp hmem with h1 | h1
        · rcases List.mem_append.mp h1 with h2 | h2
          · exact absurd h2 (by decide)
          · exact hnl t ht h2
        · exact absurd h1 (by decide)
    constructor
    · conv_lhs => rw [extract_headlines]
      rw [hsplit]
      exact extractHeadsGo_wrap (extract_headlines md) [] hcap h6 hnd (by simp)
    · have hcons : consecB ((extract_headlines md).map wrapBold).length 0
          (marksOf ((extract_headlines md).map wrapBold)) = true := by
        have hisSome : ∀ ln ∈ (extract_headlines md).map wrapBold,
            (smallF ln).isSome := by
          intro ln hln
          obtain ⟨t, ht, hw⟩ := List.mem_map.mp hln
          rw [← hw]
          have hsm : smallF (wrapBold t) = some t := by
            unfold smallF
            simp only [hcap t ht]
            rw [if_pos (h6 t ht)]
          rw [hsm]
          rfl
        have h0 := markF_consec ((extract_headlines md).map wrapBold) 0 hisSome
        rw [Nat.zero_add] at h0
        exact h0
      have htg := topicsGo_consec ((extract_headlines md).map wrapBold) _ 0 hcons
      have hsz : split_topics (joinNl ((extract_headlines md).map wrapBold)) =
          if (marksOf (splitlinesL
              (joinNl ((extract_headlines md).map wrapBold)))).isEmpty then []
          else topicsGo (splitlinesL (joinNl ((extract_headlines md).map wrapBold)))
            (marksOf (splitlinesL (joinNl ((extract_headlines md).map wrapBold)))) := rfl
      rw [hsz, hsplit]
      by_cases hM : (marksOf ((extract_headlines md).map wrapBold)).isEmpty
      · rw [if_pos hM]
      · rw [if_neg hM]
        exact htg

/-- The round-trip with the `*`-free hypothesis discharged on a concrete
document. -/
theorem c8_segmentation_roundtrip_witness :
    (∀ t ∈ extract_headlines (str "## Hello World"), '*' ∉ t) ∧
    (extract_headlines
        (joinNl ((extract_headlines (str "## Hello World")).map wrapBold)) =
      extract_headlines (str "## Hello World") ∧
    split_topics
        (joinNl ((extract_headlines (str "## Hello World")).map wrapBold)) = []) :=
  ⟨by decide, c8_segmentation_roundtrip (str "## Hello World") (by decide)⟩

/-- A title containing stars is extracted from a `##` heading, but its
bold-wrapped form no longer matches any heading pattern, so the round-trip
loses it: re-extraction is NOT always the identity. -/
theorem c8_star_title_not_reproduced :
    extract_headlines (str "## ab**cdefg") = [str "ab**cdefg"] ∧
    extract_headlines
      (joinNl ((extract_headlines (str "## ab**cdefg")).map wrapBold)) = [] := by
  exact ⟨by decide, by decide⟩

end AINews
